import Mathlib

/-!
Verification of the inventory/transaction core of a Python point-of-sale
program (`Inventory_management_system.py`).

Embedding conventions:
* Python dicts are association lists `List (String × v)`; the program's dicts
  have unique keys, lookups take the first match.
* `decimal.Decimal` values are an integer coefficient together with a count of
  fractional digits; arithmetic is exact (the program's magnitudes stay far
  below the default 28-digit `Decimal` context, where `+`, `-`, `*` are exact).
* The JSON text layer is an executable printer/parser pair over the document
  shapes the program stores (flat records, plus one level of arrays of flat
  records for transaction items).
* Fallible Python code (a `raise`) is `Option`-valued: `none` is an exception.
-/

namespace IMS

/-- Lookup modelling Python `d[k]` / `k in d` on a dict embedded as an
association list (first match; the program's dicts have unique keys). -/
def getv {β : Type} : List (String × β) → String → Option β
  | [], _ => none
  | (k, v) :: r, key => if k = key then some v else getv r key

/-- Assignment `d[k] = v` on a dict embedded as an association list: replaces
the first binding of `k` in place, or appends a new binding (Python dicts keep
insertion order). -/
def setKey {β : Type} : List (String × β) → String → β → List (String × β)
  | [], k, v => [(k, v)]
  | (k', v') :: r, k, v => if k' = k then (k, v) :: r else (k', v') :: setKey r k v

/-- Deletion `del d[k]`: removes the first binding of `k`. -/
def delKey {β : Type} : List (String × β) → String → List (String × β)
  | [], _ => []
  | (k', v') :: r, k => if k' = k then r else (k', v') :: delKey r k

/-! ### Decimal digits and numerals -/

/-- Decimal digit character of `d` (for `d ≤ 9`). -/
def digitChar (d : Nat) : Char := Char.ofNat (48 + d)

/-- Helper for `digitsRev`, structurally recursive on a fuel bound so that the
kernel can evaluate it. -/
def digitsRevAux : Nat → Nat → List Nat
  | 0, _ => []
  | _ + 1, 0 => []
  | fuel + 1, m + 1 => (m + 1) % 10 :: digitsRevAux fuel ((m + 1) / 10)

/-- Little-endian decimal digits of a natural number (empty for 0). -/
def digitsRev (n : Nat) : List Nat := digitsRevAux n n

/-- Value of a little-endian digit list. -/
def valLE : List Nat → Nat
  | [] => 0
  | d :: ds => d + 10 * valLE ds

/-- Big-endian decimal digits of a natural number (`[0]` for 0, as printed). -/
def digitsBE (n : Nat) : List Nat :=
  if n = 0 then [0] else (digitsRev n).reverse

/-- Digit characters printed for a natural number, modelling Python `str(n)`. -/
def natChars (n : Nat) : List Char := (digitsBE n).map digitChar

/-- Value of a decimal digit character, `none` for a non-digit. -/
def digitVal (c : Char) : Option Nat :=
  if 48 ≤ c.toNat ∧ c.toNat ≤ 57 then some (c.toNat - 48) else none

/-- Longest leading run of decimal digits and the remaining input. -/
def takeDigits : List Char → List Nat × List Char
  | [] => ([], [])
  | c :: r =>
    match digitVal c with
    | none => ([], c :: r)
    | some d =>
      let p := takeDigits r
      (d :: p.1, p.2)

/-- Value of a big-endian digit list, as accumulated by a left-to-right parse. -/
def natOfDigits (ds : List Nat) : Nat := ds.foldl (fun a d => a * 10 + d) 0

/-- The head of the input is not a decimal digit (or the input is empty). -/
def headNotDigit : List Char → Prop
  | [] => True
  | c :: _ => digitVal c = none

/-! ### Python `decimal.Decimal` -/

/-- Model of a `decimal.Decimal` value as this program uses them: the exact
value is `coeff / 10 ^ frac`, with `frac` fractional digits (the negated
exponent of the `Decimal`).  The program only ever builds decimals with
non-positive exponents (`Decimal('0.00')`, parsed prices, sums and products
of those). -/
structure PyDecimal where
  coeff : Int
  frac : Nat
  deriving DecidableEq, Repr

/-- Exact rational value of a decimal. -/
def PyDecimal.val (d : PyDecimal) : ℚ := (d.coeff : ℚ) / (10 : ℚ) ^ d.frac

/-- `Decimal` addition: operands are rescaled to the finer scale, which the
exact result keeps. -/
def PyDecimal.add (a b : PyDecimal) : PyDecimal :=
  ⟨a.coeff * (10 : Int) ^ (max a.frac b.frac - a.frac) +
     b.coeff * (10 : Int) ^ (max a.frac b.frac - b.frac), max a.frac b.frac⟩

/-- `Decimal` subtraction. -/
def PyDecimal.sub (a b : PyDecimal) : PyDecimal :=
  ⟨a.coeff * (10 : Int) ^ (max a.frac b.frac - a.frac) -
     b.coeff * (10 : Int) ^ (max a.frac b.frac - b.frac), max a.frac b.frac⟩

/-- `Decimal` multiplication. -/
def PyDecimal.mul (a b : PyDecimal) : PyDecimal :=
  ⟨a.coeff * b.coeff, a.frac + b.frac⟩

/-- `Decimal` comparison `a < b`, on the common scale. -/
def PyDecimal.ltb (a b : PyDecimal) : Bool :=
  decide (a.coeff * (10 : Int) ^ (max a.frac b.frac - a.frac) <
    b.coeff * (10 : Int) ^ (max a.frac b.frac - b.frac))

/-- Characters printed by Python `str` on a `Decimal` in plain fixed-point
form: sign, the coefficient digits padded with leading zeros to at least
`frac + 1` digits, and a decimal point when `frac > 0`.  (For adjusted
exponents below -6 or above 0, `str` switches to scientific notation; no
value this program stores is in that regime.) -/
def decChars (d : PyDecimal) : List Char :=
  let ds := digitsBE d.coeff.natAbs
  let padded := List.replicate (d.frac + 1 - ds.length) 0 ++ ds
  let sign : List Char := if d.coeff < 0 then ['-'] else []
  if d.frac = 0 then sign ++ ds.map digitChar
  else sign ++ (padded.take (padded.length - d.frac)).map digitChar ++
    '.' :: (padded.drop (padded.length - d.frac)).map digitChar

/-- Python `str(d)` for a `Decimal`, as serialized into the JSON documents. -/
def decToString (d : PyDecimal) : String := ⟨decChars d⟩

/-- Python `Decimal(s)` on the plain decimal strings this program reads and
writes: optional sign, integer digits, optionally a point and fraction
digits.  (`Decimal` also accepts exponent forms; none occur here.) -/
def decOfChars (l : List Char) : Option PyDecimal :=
  match l with
  | [] => none
  | c :: r =>
    let neg := c = '-'
    let l1 := if c = '-' then r else c :: r
    match takeDigits l1 with
    | ([], _) => none
    | (ids, rest) =>
      match rest with
      | [] => some ⟨if neg then -(natOfDigits ids : Int) else (natOfDigits ids : Int), 0⟩
      | c2 :: r2 =>
        if c2 = '.' then
          match takeDigits r2 with
          | ([], _) => none
          | (fds, rest2) =>
            match rest2 with
            | [] => some ⟨if neg then -(natOfDigits (ids ++ fds) : Int)
                          else (natOfDigits (ids ++ fds) : Int), fds.length⟩
            | _ => none
        else none

def decOfString (s : String) : Option PyDecimal := decOfChars s.data

/-! ### JSON documents

The program persists three JSON documents (products, transactions, users).
Every one is an object of records; record fields are strings, integers, or —
only for the `items` of a transaction — an array of flat records of strings
and integers.  The types below capture exactly these shapes, so the printer
and parser need no unbounded nesting. -/

/-- Scalar JSON value inside a transaction item record. -/
inductive SVal where
  | str (v : String)
  | int (v : Int)
  deriving DecidableEq, Repr

/-- Flat JSON object of scalars: one transaction line item. -/
abbrev ItemRec := List (String × SVal)

/-- JSON value inside a top-level record: a string, an integer, or an array
of flat objects (the `items` list of a transaction). -/
inductive JVal where
  | str (v : String)
  | int (v : Int)
  | arr (v : List ItemRec)
  deriving DecidableEq, Repr

/-- One stored record (a product, a transaction, or a user). -/
abbrev JRec := List (String × JVal)

/-- A whole JSON document: identifier → record. -/
abbrev JDoc := List (String × JRec)

/-- Opening brace character. -/
def obr : Char := Char.ofNat 123

/-- Closing brace character. -/
def cbr : Char := Char.ofNat 125

/-- JSON rendering of a string in the no-escape regime (`plainStr` below):
`json.dumps` prints such strings verbatim between quotes. -/
def dumpString (s : String) : List Char := '"' :: s.data ++ ['"']

/-- JSON rendering of a Python int. -/
def dumpInt (n : Int) : List Char :=
  if n < 0 then '-' :: natChars n.natAbs else natChars n.natAbs

def dumpSVal : SVal → List Char
  | .str v => dumpString v
  | .int v => dumpInt v

def dumpFieldS (kv : String × SVal) : List Char :=
  dumpString kv.1 ++ ':' :: dumpSVal kv.2

def dumpFieldsS : ItemRec → List Char
  | [] => []
  | [kv] => dumpFieldS kv
  | kv :: r => dumpFieldS kv ++ ',' :: dumpFieldsS r

def dumpItemRec (r : ItemRec) : List Char := obr :: dumpFieldsS r ++ [cbr]

def dumpElems : List ItemRec → List Char
  | [] => []
  | [x] => dumpItemRec x
  | x :: xs => dumpItemRec x ++ ',' :: dumpElems xs

def dumpArr (xs : List ItemRec) : List Char := '[' :: dumpElems xs ++ [']']

def dumpJVal : JVal → List Char
  | .str v => dumpString v
  | .int v => dumpInt v
  | .arr v => dumpArr v

def dumpFieldJ (kv : String × JVal) : List Char :=
  dumpString kv.1 ++ ':' :: dumpJVal kv.2

def dumpFieldsJ : JRec → List Char
  | [] => []
  | [kv] => dumpFieldJ kv
  | kv :: r => dumpFieldJ kv ++ ',' :: dumpFieldsJ r

def dumpJRec (r : JRec) : List Char := obr :: dumpFieldsJ r ++ [cbr]

def dumpFieldD (kv : String × JRec) : List Char :=
  dumpString kv.1 ++ ':' :: dumpJRec kv.2

def dumpFieldsD : JDoc → List Char
  | [] => []
  | [kv] => dumpFieldD kv
  | kv :: r => dumpFieldD kv ++ ',' :: dumpFieldsD r

/-- Model of `json.dumps(doc)` as called by `JSONStorage.save_data`: the
canonical compact rendering.  (The source passes `indent=4`, which only
inserts JSON-inert whitespace between the same tokens.) -/
def jsonDumps (doc : JDoc) : String := ⟨obr :: dumpFieldsD doc ++ [cbr]⟩

/-- Characters up to the next quote (strings in the plain regime contain no
escape sequences). -/
def takeUntilQuote : List Char → Option (List Char × List Char)
  | [] => none
  | c :: r =>
    if c = '"' then some ([], r)
    else (takeUntilQuote r).map (fun p => (c :: p.1, p.2))

/-- JSON string literal parser (plain regime). -/
def parseStringLit : List Char → Option (String × List Char)
  | [] => none
  | c :: r =>
    if c = '"' then (takeUntilQuote r).map (fun p => (⟨p.1⟩, p.2))
    else none

/-- JSON integer parser. -/
def parseIntLit (l : List Char) : Option (Int × List Char) :=
  match l with
  | [] => none
  | c :: r =>
    if c = '-' then
      match takeDigits r with
      | ([], _) => none
      | (ds, rest) => some (-(natOfDigits ds : Int), rest)
    else
      match takeDigits (c :: r) with
      | ([], _) => none
      | (ds, rest) => some ((natOfDigits ds : Int), rest)

def parseSVal (l : List Char) : Option (SVal × List Char) :=
  match l with
  | [] => none
  | c :: r =>
    if c = '"' then (parseStringLit (c :: r)).map (fun p => (SVal.str p.1, p.2))
    else (parseIntLit (c :: r)).map (fun p => (SVal.int p.1, p.2))

/-- Fields of a non-empty flat object, consuming the closing brace. -/
def parseFieldsS : Nat → List Char → Option (ItemRec × List Char)
  | 0, _ => none
  | fuel + 1, l =>
    match parseStringLit l with
    | none => none
    | some (k, l1) =>
      match l1 with
      | [] => none
      | c :: l2 =>
        if c = ':' then
          match parseSVal l2 with
          | none => none
          | some (v, l3) =>
            match l3 with
            | [] => none
            | c2 :: l4 =>
              if c2 = ',' then (parseFieldsS fuel l4).map (fun p => ((k, v) :: p.1, p.2))
              else if c2 = cbr then some ([(k, v)], l4)
              else none
        else none

def parseItemRec (fuel : Nat) (l : List Char) : Option (ItemRec × List Char) :=
  match l with
  | [] => none
  | c :: l1 =>
    if c = obr then
      match l1 with
      | [] => none
      | c2 :: _ => if c2 = cbr then some ([], l1.tail) else parseFieldsS fuel l1
    else none

/-- Elements of a non-empty array, consuming the closing bracket. -/
def parseElems : Nat → List Char → Option (List ItemRec × List Char)
  | 0, _ => none
  | fuel + 1, l =>
    match parseItemRec fuel l with
    | none => none
    | some (x, l1) =>
      match l1 with
      | [] => none
      | c :: l2 =>
        if c = ',' then (parseElems fuel l2).map (fun p => (x :: p.1, p.2))
        else if c = ']' then some ([x], l2)
        else none

def parseJVal (fuel : Nat) (l : List Char) : Option (JVal × List Char) :=
  match l with
  | [] => none
  | c :: r =>
    if c = '"' then (parseStringLit (c :: r)).map (fun p => (JVal.str p.1, p.2))
    else if c = '[' then
      match r with
      | [] => none
      | c2 :: l2 =>
        if c2 = ']' then some (JVal.arr [], l2)
        else (parseElems fuel r).map (fun p => (JVal.arr p.1, p.2))
    else (parseIntLit (c :: r)).map (fun p => (JVal.int p.1, p.2))

/-- Fields of a non-empty record, consuming the closing brace. -/
def parseFieldsJ : Nat → List Char → Option (JRec × List Char)
  | 0, _ => none
  | fuel + 1, l =>
    match parseStringLit l with
    | none => none
    | some (k, l1) =>
      match l1 with
      | [] => none
      | c :: l2 =>
        if c = ':' then
          match parseJVal (fuel + 1) l2 with
          | none => none
          | some (v, l3) =>
            match l3 with
            | [] => none
            | c2 :: l4 =>
              if c2 = ',' then (parseFieldsJ fuel l4).map (fun p => ((k, v) :: p.1, p.2))
              else if c2 = cbr then some ([(k, v)], l4)
              else none
        else none

def parseJRec (fuel : Nat) (l : List Char) : Option (JRec × List Char) :=
  match l with
  | [] => none
  | c :: l1 =>
    if c = obr then
      match l1 with
      | [] => none
      | c2 :: _ => if c2 = cbr then some ([], l1.tail) else parseFieldsJ fuel l1
    else none

/-- Fields of a non-empty document, consuming the closing brace. -/
def parseFieldsD : Nat → List Char → Option (JDoc × List Char)
  | 0, _ => none
  | fuel + 1, l =>
    match parseStringLit l with
    | none => none
    | some (k, l1) =>
      match l1 with
      | [] => none
      | c :: l2 =>
        if c = ':' then
          match parseJRec (fuel + 1) l2 with
          | none => none
          | some (v, l3) =>
            match l3 with
            | [] => none
            | c2 :: l4 =>
              if c2 = ',' then (parseFieldsD fuel l4).map (fun p => ((k, v) :: p.1, p.2))
              else if c2 = cbr then some ([(k, v)], l4)
              else none
        else none

def parseJDoc (fuel : Nat) (l : List Char) : Option (JDoc × List Char) :=
  match l with
  | [] => none
  | c :: l1 =>
    if c = obr then
      match l1 with
      | [] => none
      | c2 :: _ => if c2 = cbr then some ([], l1.tail) else parseFieldsD fuel l1
    else none

/-- Model of `json.loads` as called by `JSONStorage.load_data`, restricted to
the document grammar the program stores (on which `json.loads` agrees with
this grammar); trailing garbage is rejected, as `json.loads` raises on it. -/
def jsonLoads (s : String) : Option JDoc :=
  match parseJDoc (s.length + 1) s.data with
  | some (d, []) => some d
  | _ => none

/-- Character printable without a JSON escape: ASCII, not a control
character, not a quote, not a backslash.  `json.dumps` writes such
characters verbatim. -/
def plainChar (c : Char) : Bool :=
  decide (32 ≤ c.toNat) && decide (c.toNat < 127) &&
    decide (c.toNat ≠ 34) && decide (c.toNat ≠ 92)

def plainStr (s : String) : Bool := s.data.all plainChar

def plainSVal : SVal → Bool
  | .str v => plainStr v
  | .int _ => true

def plainItemRec (r : ItemRec) : Bool :=
  r.all (fun kv => plainStr kv.1 && plainSVal kv.2)

def plainJVal : JVal → Bool
  | .str v => plainStr v
  | .int _ => true
  | .arr v => v.all plainItemRec

def plainJRec (r : JRec) : Bool :=
  r.all (fun kv => plainStr kv.1 && plainJVal kv.2)

def plainJDoc (d : JDoc) : Bool :=
  d.all (fun kv => plainStr kv.1 && plainJRec kv.2)

/-! ### Round trip of the JSON layer -/

/-! ### Transactions (`TransactionItem`, `Transaction`) -/

/-- The `TransactionItem` dataclass. -/
structure TransactionItem where
  product_id : String
  quantity : Int
  unit_price : PyDecimal
  total_price : PyDecimal
  deriving DecidableEq, Repr

/-- The `Transaction` object state.  `timestamp` is `datetime.now()` taken at
construction; only its `isoformat()` serialization is ever read, so it is
carried as that string. -/
structure Transaction where
  transaction_id : String
  cashier : String
  timestamp : String
  items : List TransactionItem
  total_amount : PyDecimal
  payment_received : PyDecimal
  change : PyDecimal
  deriving DecidableEq, Repr

/-- `Transaction.__init__`: no items, and `Decimal('0.00')` for the total,
the payment and the change. -/
def Transaction.init (transaction_id cashier timestamp : String) : Transaction :=
  ⟨transaction_id, cashier, timestamp, [], ⟨0, 2⟩, ⟨0, 2⟩, ⟨0, 2⟩⟩

/-- `Transaction.add_item`: appends the item and adds its `total_price` to
the running total. -/
def Transaction.add_item (t : Transaction) (item : TransactionItem) : Transaction :=
  { t with items := t.items ++ [item],
           total_amount := t.total_amount.add item.total_price }

/-- A whole sequence of `add_item` calls. -/
def Transaction.addItems (t : Transaction) (l : List TransactionItem) : Transaction :=
  l.foldl Transaction.add_item t

/-- `Transaction.process_payment`: raises `ValueError` (`none` here) when the
amount received is below the total; otherwise records the payment and the
change.  There is no state guard: the method behaves identically on a
transaction that has already been paid. -/
def Transaction.process_payment (t : Transaction) (amount_received : PyDecimal) :
    Option Transaction :=
  if amount_received.ltb t.total_amount then none
  else some { t with payment_received := amount_received,
                     change := amount_received.sub t.total_amount }

/-- `TransactionItem` as serialized inside `Transaction.to_dict`: quantity as
a native int, monetary fields through `str(...)`. -/
def TransactionItem.to_dict (it : TransactionItem) : ItemRec :=
  [("product_id", .str it.product_id), ("quantity", .int it.quantity),
   ("unit_price", .str (decToString it.unit_price)),
   ("total_price", .str (decToString it.total_price))]

/-- `Transaction.to_dict`: the persisted record, monetary fields through
`str(...)`, timestamp through `isoformat()`. -/
def Transaction.to_dict (t : Transaction) : JRec :=
  [("transaction_id", .str t.transaction_id), ("cashier", .str t.cashier),
   ("timestamp", .str t.timestamp),
   ("items", .arr (t.items.map TransactionItem.to_dict)),
   ("total_amount", .str (decToString t.total_amount)),
   ("payment_received", .str (decToString t.payment_received)),
   ("change", .str (decToString t.change))]

/-! ### Products and the inventory document -/

/-- The `Product` class.  `price` is declared `Decimal` in the source
(`price (Decimal): Unit price of the product`). -/
structure Product where
  product_id : String
  name : String
  category : String
  price : PyDecimal
  quantity : Int
  expiry_date : String
  deriving DecidableEq, Repr

/-- `Product.to_dict`: price through `str(...)`, quantity as a native int. -/
def Product.to_dict (p : Product) : JRec :=
  [("product_id", .str p.product_id), ("name", .str p.name),
   ("category", .str p.category), ("price", .str (decToString p.price)),
   ("quantity", .int p.quantity), ("expiry_date", .str p.expiry_date)]

/-- Left-to-right traversal failing at the first exception, as a Python
comprehension or `sum(...)` evaluates: `none` as soon as one element raises. -/
def optMap {α β : Type} (f : α → Option β) : List α → Option (List β)
  | [] => some []
  | x :: r =>
    match f x, optMap f r with
    | some y, some ys => some (y :: ys)
    | _, _ => none

/-- Python `int(x)` on a stored field value: an int is itself, a string of an
optionally signed integer literal parses, anything else raises (`none`).
(Surrounding whitespace, which `int` would strip, does not occur in this
program's data.) -/
def pyInt : JVal → Option Int
  | .int n => some n
  | .str s =>
    match s.data with
    | [] => none
    | c :: r =>
      if c = '-' then
        match takeDigits r with
        | ([], _) => none
        | (ds, []) => some (-(natOfDigits ds : Int))
        | (_, _ :: _) => none
      else
        match takeDigits (c :: r) with
        | ([], _) => none
        | (ds, []) => some ((natOfDigits ds : Int))
        | (_, _ :: _) => none
  | .arr _ => none

/-- Stored quantity of a product record, as `int(inventory[pid]["quantity"])`
reads it (`none`: missing key or failed conversion, both exceptions). -/
def recQty (r : JRec) : Option Int := (getv r "quantity").bind pyInt

/-- `Inventory.add_product`: `False` on a duplicate id before any write,
otherwise stores `product.to_dict` and saves. -/
def add_product (inv : JDoc) (product : Product) : Bool × JDoc :=
  if (getv inv product.product_id).isSome then (false, inv)
  else (true, setKey inv product.product_id product.to_dict)

/-- `Inventory.update_prodcut` (source spelling): `False` on a missing id
before any write, otherwise `dict.update` of the given field/value pairs into
the stored record, then save. -/
def dictUpdate (r updates : JRec) : JRec :=
  updates.foldl (fun acc kv => setKey acc kv.1 kv.2) r

def update_prodcut (inv : JDoc) (product_id : String) (updates : JRec) : Bool × JDoc :=
  match getv inv product_id with
  | none => (false, inv)
  | some r => (true, setKey inv product_id (dictUpdate r updates))

/-- `Inventory.delete_product`: `False` on a missing id before any write,
otherwise `del` and save. -/
def delete_product (inv : JDoc) (product_id : String) : Bool × JDoc :=
  match getv inv product_id with
  | none => (false, inv)
  | some _ => (true, delKey inv product_id)

/-- `Inventory.adjust_stock`: `False` for a missing id; `False`, before any
write, when the change would drive the quantity negative; otherwise writes
the new quantity and saves.  `none` models the `int(...)` exception on an
unreadable stored quantity (which also happens before any write); the
low-stock branch only prints. -/
def adjust_stock (inv : JDoc) (product_id : String) (quantity_change : Int) :
    Option (Bool × JDoc) :=
  match getv inv product_id with
  | none => some (false, inv)
  | some r =>
    match recQty r with
    | none => none
    | some q =>
      let new_quantity := q + quantity_change
      if new_quantity < 0 then some (false, inv)
      else some (true, setKey inv product_id (setKey r "quantity" (.int new_quantity)))

/-- A sequence of `adjust_stock` calls against the persisted document; an
exception (`none`) aborts before any write, leaving storage as it was. -/
def adjustSeq : JDoc → List (String × Int) → JDoc
  | inv, [] => inv
  | inv, (pid, d) :: rest =>
    match adjust_stock inv pid d with
    | none => inv
    | some (_, inv2) => adjustSeq inv2 rest

/-- The stored quantity of a record parses and is non-negative. -/
def qtyOk (r : JRec) : Bool :=
  match recQty r with
  | some n => decide (0 ≤ n)
  | none => false

/-- Catalog invariant: every stored product quantity is a non-negative
integer. -/
def QtyInv (inv : JDoc) : Prop := ∀ kv ∈ inv, qtyOk kv.2 = true

instance decQtyInv (inv : JDoc) : Decidable (QtyInv inv) :=
  List.decidableBAll _ inv

/-! ### Dates -/

/-- A `datetime` instant: a calendar day number together with seconds within
the day.  (`datetime` also tracks microseconds; nothing in the program needs
finer than seconds.) -/
structure PyDateTime where
  day : Int
  sec : Nat
  deriving DecidableEq, Repr

/-- Day number of a Gregorian calendar date (days-from-civil). -/
def daysFromCivil (y : Int) (m d : Nat) : Int :=
  let y2 : Int := if m ≤ 2 then y - 1 else y
  let era : Int := Int.fdiv y2 400
  let yoe : Int := y2 - era * 400
  let mp : Int := if 2 < m then (m : Int) - 3 else (m : Int) + 9
  let doy : Int := Int.fdiv (153 * mp + 2) 5 + (d : Int) - 1
  let doe : Int := yoe * 365 + Int.fdiv yoe 4 - Int.fdiv yoe 100 + doy
  era * 146097 + doe - 719468

/-- Parse of a zero-padded `"%Y-%m-%d"` date, as the program writes them and
`datetime.strptime` reads them, to its day number; `none` is the
`ValueError` on malformed input.  (Day-of-month validity is approximated by
`1..31`; only well-formed dates appear in the claims below.) -/
def parseDateYMD (s : String) : Option Int :=
  match s.data with
  | [y1, y2, y3, y4, h1, m1, m2, h2, d1, d2] =>
    if h1 = '-' ∧ h2 = '-' then
      match digitVal y1, digitVal y2, digitVal y3, digitVal y4,
            digitVal m1, digitVal m2, digitVal d1, digitVal d2 with
      | some a, some b, some c, some d, some e, some f, some g, some h =>
        let month := e * 10 + f
        let dayn := g * 10 + h
        if 1 ≤ month ∧ month ≤ 12 ∧ 1 ≤ dayn ∧ dayn ≤ 31 then
          some (daysFromCivil ((a * 1000 + b * 100 + c * 10 + d : Nat) : Int) month dayn)
        else none
      | _, _, _, _, _, _, _, _ => none
    else none
  | _ => none

/-- Expiry day number of a stored record, as
`datetime.strptime(product["expiry_date"], "%Y-%m-%d")` reads it. -/
def expiryDay (r : JRec) : Option Int :=
  match getv r "expiry_date" with
  | some (.str s) => parseDateYMD s
  | _ => none

/-- Python `timedelta.days` of `expiry_midnight - now`: the floor of the
difference in seconds over a day. -/
def daysUntil (expiry : Int) (now : PyDateTime) : Int :=
  Int.fdiv (expiry * 86400 - (now.day * 86400 + (now.sec : Int))) 86400

/-- `Inventory.get_expiring_products`: the stored products with
`(strptime(p["expiry_date"], "%Y-%m-%d") - today).days <= days`; `none` when
some record's expiry date is missing or malformed (`strptime` raises). -/
def get_expiring_products (inv : JDoc) (now : PyDateTime) (days : Int) :
    Option (List JRec) :=
  match optMap (fun kv => (expiryDay kv.2).map (fun e => (kv.2, e))) inv with
  | none => none
  | some l =>
    some ((l.filter (fun pe => decide (daysUntil pe.2 now ≤ days))).map (fun pe => pe.1))

/-! ### The transaction ledger and the daily report -/

/-- Timestamp field of a stored transaction record. -/
def recTimestamp (r : JRec) : Option String :=
  match getv r "timestamp" with
  | some (.str s) => some s
  | _ => none

/-- The calendar day of `datetime.fromisoformat(ts).date()`: the day encoded
by the first ten characters of an ISO timestamp (the timestamps the ledger
stores are `datetime.now().isoformat()`, on which this is exact). -/
def isoDay (s : String) : Option Int := parseDateYMD ⟨s.data.take 10⟩

/-- `Decimal(t["total_amount"])` on a stored record. -/
def recTotalAmount (r : JRec) : Option PyDecimal :=
  match getv r "total_amount" with
  | some (.str s) => decOfString s
  | _ => none

/-- The item quantities of a stored record, as `sum(item["quantity"] for
item in t["items"])` reads them (`none`: missing field or non-int quantity,
an exception). -/
def itemQty (it : ItemRec) : Option Int :=
  match getv it "quantity" with
  | some (.int n) => some n
  | _ => none

def recItemQtys (r : JRec) : Option (List Int) :=
  match getv r "items" with
  | some (.arr items) => optMap itemQty items
  | _ => none

/-- Result of Python `sum(...)`: `sum` starts from the int `0`, so the empty
sum is the int `0`, and a non-empty sum of decimals is a `Decimal`. -/
inductive PySumResult where
  | pyint (n : Int)
  | pydec (d : PyDecimal)
  deriving DecidableEq, Repr

/-- `sum(...)` over the filtered totals. -/
def pySum (l : List PyDecimal) : PySumResult :=
  match l with
  | [] => .pyint 0
  | _ => .pydec (l.foldl PyDecimal.add ⟨0, 0⟩)

/-- `str(...)` of a sum result. -/
def pyStr : PySumResult → String
  | .pyint n => ⟨dumpInt n⟩
  | .pydec d => decToString d

/-- The dictionary `get_daily_sales_report` returns (its `"date"` entry, the
`isoformat` string of the argument's date, is carried as the day number). -/
structure DailyReport where
  reportDay : Int
  total_sales : String
  total_transactions : Nat
  total_items_sold : Int
  transactions : JDoc
  deriving DecidableEq, Repr

/-- `TransactionManager.get_daily_sales_report`: filters the stored
transactions to those timestamped on the argument's calendar date, sums their
`total_amount`s with Python `sum`, counts them and their item quantities.
`none` models an exception from `fromisoformat`, `Decimal` or a bad items
field. -/
def get_daily_sales_report (store : JDoc) (date : PyDateTime) : Option DailyReport :=
  match optMap (fun kv => ((recTimestamp kv.2).bind isoDay).map (fun d => (kv, d))) store with
  | none => none
  | some tagged =>
    let daily := (tagged.filter (fun x => decide (x.2 = date.day))).map (fun x => x.1)
    match optMap (fun kv => recTotalAmount kv.2) daily with
    | none => none
    | some decs =>
      match optMap (fun kv => recItemQtys kv.2) daily with
      | none => none
      | some qss =>
        some ⟨date.day, pyStr (pySum decs), daily.length,
          (qss.map (fun qs => qs.foldl (fun a b => a + b) 0)).foldl (fun a b => a + b) 0,
          daily⟩

/-! ### User registration -/

/-- Python `str.lower` (the program's usernames are ASCII). -/
def pyLower (s : String) : String := ⟨s.data.map Char.toLower⟩

/-- `User.register`: any username lowercasing to `"admin"` is refused; an
existing username is refused; otherwise a Salesman record is stored. -/
def register (users : JDoc) (username password : String) : Bool × JDoc :=
  if pyLower username = "admin" then (false, users)
  else if (getv users username).isSome then (false, users)
  else (true, setKey users username [("password", .str password), ("role", .str "salesman")])

/-! ### Binary floating point at the admin add-product prompt -/

/-- Round `num / den` to the nearest integer, ties to even. -/
def roundHalfEven (num den : Nat) : Nat :=
  let q := num / den
  let r := num % den
  if 2 * r < den then q
  else if den < 2 * r then q + 1
  else if q % 2 = 0 then q else q + 1

/-- Binary64 value of the positive decimal `n / 10 ^ d`, as mantissa `m` and
scale `t`: the float is exactly `m / 2 ^ (t - 128)` with `2 ^ 52 ≤ m < 2 ^ 53`
before rounding.  Covers the normal range, which includes every price a user
could type. -/
def float64Mantissa (n d : Nat) : Option (Nat × Nat) :=
  match (List.range 400).find? (fun t =>
      decide (2 ^ 52 * (10 ^ d * 2 ^ 128) ≤ n * 2 ^ t) &&
      decide (n * 2 ^ t < 2 ^ 53 * (10 ^ d * 2 ^ 128))) with
  | none => none
  | some t => some (roundHalfEven (n * 2 ^ t) (10 ^ d * 2 ^ 128), t)

/-- `float(s)` on a plain positive decimal string, exactly as
`_add_product` applies it to the typed price before constructing the
`Product`: the exact decimal value is rounded to binary64. -/
def pyFloat (s : String) : Option (Nat × Nat) :=
  match decOfString s with
  | some dd => if 0 ≤ dd.coeff then float64Mantissa dd.coeff.natAbs dd.frac else none
  | none => none

/-- The record's timestamp parses and its calendar day differs from `day`
(used to state, decidably, that no stored transaction falls on a date). -/
def tsNotOn (r : JRec) (day : Int) : Bool :=
  match (recTimestamp r).bind isoDay with
  | some d => decide (d ≠ day)
  | none => false

/-! ### Theorems -/

@[simp] theorem getv_nil {β : Type} (k : String) :
    getv ([] : List (String × β)) k = none := rfl

@[simp] theorem getv_cons {β : Type} (k' : String) (v' : β) (r : List (String × β)) (k : String) :
    getv ((k', v') :: r) k = if k' = k then some v' else getv r k := rfl

theorem getv_setKey_self {β : Type} (l : List (String × β)) (k : String) (v : β) :
    getv (setKey l k v) k = some v := by
  induction l with
  | nil => simp [setKey]
  | cons kv r ih =>
    obtain ⟨k', v'⟩ := kv
    by_cases h : k' = k
    · simp [setKey, h]
    · simp [setKey, h, ih]

theorem getv_setKey_ne {β : Type} (l : List (String × β)) (k k₂ : String) (v : β)
    (h : k ≠ k₂) : getv (setKey l k v) k₂ = getv l k₂ := by
  induction l with
  | nil => simp [setKey, h]
  | cons kv r ih =>
    obtain ⟨k', v'⟩ := kv
    by_cases h' : k' = k
    · subst h'
      simp [setKey, h]
    · simp [setKey, h', ih]

theorem getv_delKey_ne {β : Type} (l : List (String × β)) (k k₂ : String)
    (h : k ≠ k₂) : getv (delKey l k) k₂ = getv l k₂ := by
  induction l with
  | nil => simp [delKey]
  | cons kv r ih =>
    obtain ⟨k', v'⟩ := kv
    by_cases h' : k' = k
    · subst h'
      simp [delKey, h]
    · simp [delKey, h', ih]

/-- Membership in the result of `setKey` comes from the new binding or from
the original list. -/
theorem mem_setKey {β : Type} (l : List (String × β)) (k : String) (v : β) (kv : String × β) :
    kv ∈ setKey l k v → kv = (k, v) ∨ kv ∈ l := by
  induction l with
  | nil => intro h; simpa [setKey] using h
  | cons kv' r ih =>
    obtain ⟨k', v'⟩ := kv'
    intro h
    by_cases h' : k' = k
    · simp only [setKey, if_pos h'] at h
      rcases List.mem_cons.mp h with h | h
      · exact Or.inl h
      · exact Or.inr (List.mem_cons_of_mem _ h)
    · simp only [setKey, if_neg h'] at h
      rcases List.mem_cons.mp h with h | h
      · exact Or.inr (by simp [h])
      · rcases ih h with h | h
        · exact Or.inl h
        · exact Or.inr (List.mem_cons_of_mem _ h)

theorem valLE_digitsRevAux (fuel : Nat) : ∀ n ≤ fuel, valLE (digitsRevAux fuel n) = n := by
  induction fuel with
  | zero => intro n hn; interval_cases n; rfl
  | succ f ih =>
    intro n hn
    match n with
    | 0 => rfl
    | m + 1 =>
      rw [digitsRevAux, valLE, ih ((m + 1) / 10) (by omega)]
      omega

theorem valLE_digitsRev (n : Nat) : valLE (digitsRev n) = n :=
  valLE_digitsRevAux n n le_rfl

theorem digitsRevAux_lt_ten (fuel : Nat) : ∀ n, ∀ d ∈ digitsRevAux fuel n, d < 10 := by
  induction fuel with
  | zero => intro n d hd; simp [digitsRevAux] at hd
  | succ f ih =>
    intro n d hd
    match n with
    | 0 => simp [digitsRevAux] at hd
    | m + 1 =>
      rw [digitsRevAux] at hd
      rcases List.mem_cons.mp hd with h | h
      · omega
      · exact ih ((m + 1) / 10) d h

theorem digitsRev_lt_ten (n : Nat) : ∀ d ∈ digitsRev n, d < 10 :=
  digitsRevAux_lt_ten n n

theorem digitsBE_lt_ten (n : Nat) : ∀ d ∈ digitsBE n, d < 10 := by
  intro d hd
  unfold digitsBE at hd
  by_cases h : n = 0
  · simp [h] at hd
    omega
  · simp only [if_neg h, List.mem_reverse] at hd
    exact digitsRev_lt_ten n d hd

theorem digitsBE_ne_nil (n : Nat) : digitsBE n ≠ [] := by
  unfold digitsBE
  by_cases h : n = 0
  · simp [h]
  · rw [if_neg h]
    cases n with
    | zero => exact absurd rfl h
    | succ m => simp [digitsRev, digitsRevAux]

theorem digitVal_digitChar {d : Nat} (h : d < 10) : digitVal (digitChar d) = some d := by
  interval_cases d <;> rfl

theorem digitChar_ne_minus {d : Nat} (h : d < 10) : digitChar d ≠ '-' := by
  interval_cases d <;> decide

theorem digitChar_ne_dot {d : Nat} (h : d < 10) : digitChar d ≠ '.' := by
  interval_cases d <;> decide

theorem takeDigits_spec (ds : List Nat) (h : ∀ d ∈ ds, d < 10) (rest : List Char)
    (hr : headNotDigit rest) : takeDigits (ds.map digitChar ++ rest) = (ds, rest) := by
  induction ds with
  | nil =>
    cases rest with
    | nil => rfl
    | cons c r =>
      simp only [List.map_nil, List.nil_append, takeDigits]
      rw [show digitVal c = none from hr]
  | cons d ds ih =>
    have hd : d < 10 := h d (List.mem_cons_self _ _)
    simp only [List.map_cons, List.cons_append, takeDigits, digitVal_digitChar hd,
      List.append_eq]
    rw [ih (fun x hx => h x (List.mem_cons_of_mem _ hx))]

theorem foldl_digits_reverse (ds : List Nat) (a : Nat) :
    List.foldl (fun a d => a * 10 + d) a ds.reverse = a * 10 ^ ds.length + valLE ds := by
  induction ds generalizing a with
  | nil => simp [valLE]
  | cons d ds ih =>
    simp only [List.reverse_cons, List.foldl_append, List.foldl_cons, List.foldl_nil, ih,
      valLE, List.length_cons]
    ring

theorem natOfDigits_digitsBE (n : Nat) : natOfDigits (digitsBE n) = n := by
  unfold digitsBE natOfDigits
  by_cases h : n = 0
  · simp [h]
  · rw [if_neg h, foldl_digits_reverse, valLE_digitsRev]
    simp

theorem natOfDigits_replicate_zero (k : Nat) (ds : List Nat) :
    natOfDigits (List.replicate k 0 ++ ds) = natOfDigits ds := by
  unfold natOfDigits
  rw [List.foldl_append]
  congr 1
  induction k with
  | zero => rfl
  | succ m ih => simpa [List.replicate_succ] using ih

theorem PyDecimal.rescale_a (a b : PyDecimal) :
    (10 : ℚ) ^ (a.frac ⊔ b.frac - a.frac) * 10 ^ a.frac = 10 ^ (a.frac ⊔ b.frac) := by
  rw [← pow_add]
  congr 1
  omega

theorem PyDecimal.rescale_b (a b : PyDecimal) :
    (10 : ℚ) ^ (a.frac ⊔ b.frac - b.frac) * 10 ^ b.frac = 10 ^ (a.frac ⊔ b.frac) := by
  rw [← pow_add]
  congr 1
  omega

theorem PyDecimal.val_add (a b : PyDecimal) : (PyDecimal.add a b).val = a.val + b.val := by
  unfold PyDecimal.add PyDecimal.val
  simp only
  rw [div_add_div _ _ (by positivity) (by positivity),
    div_eq_div_iff (by positivity) (by positivity)]
  push_cast
  linear_combination ((a.coeff : ℚ) * 10 ^ b.frac) * PyDecimal.rescale_a a b +
    ((b.coeff : ℚ) * 10 ^ a.frac) * PyDecimal.rescale_b a b

theorem PyDecimal.val_sub (a b : PyDecimal) : (PyDecimal.sub a b).val = a.val - b.val := by
  unfold PyDecimal.sub PyDecimal.val
  simp only
  rw [div_sub_div _ _ (by positivity) (by positivity),
    div_eq_div_iff (by positivity) (by positivity)]
  push_cast
  linear_combination ((a.coeff : ℚ) * 10 ^ b.frac) * PyDecimal.rescale_a a b -
    ((b.coeff : ℚ) * 10 ^ a.frac) * PyDecimal.rescale_b a b

theorem PyDecimal.ltb_iff_val (a b : PyDecimal) : PyDecimal.ltb a b = true ↔ a.val < b.val := by
  have cast_iff : a.coeff * 10 ^ (a.frac ⊔ b.frac - a.frac) <
      b.coeff * 10 ^ (a.frac ⊔ b.frac - b.frac) ↔
      ((a.coeff * 10 ^ (a.frac ⊔ b.frac - a.frac) : Int) : ℚ) <
      ((b.coeff * 10 ^ (a.frac ⊔ b.frac - b.frac) : Int) : ℚ) := Int.cast_lt.symm
  unfold PyDecimal.ltb PyDecimal.val
  rw [decide_eq_true_iff, div_lt_div_iff₀ (by positivity) (by positivity), cast_iff]
  push_cast
  have e1 : (a.coeff : ℚ) * 10 ^ (a.frac ⊔ b.frac - a.frac) * (10 ^ a.frac * 10 ^ b.frac) =
      (a.coeff : ℚ) * 10 ^ b.frac * 10 ^ (a.frac ⊔ b.frac) := by
    linear_combination ((a.coeff : ℚ) * 10 ^ b.frac) * PyDecimal.rescale_a a b
  have e2 : (b.coeff : ℚ) * 10 ^ (a.frac ⊔ b.frac - b.frac) * (10 ^ a.frac * 10 ^ b.frac) =
      (b.coeff : ℚ) * 10 ^ a.frac * 10 ^ (a.frac ⊔ b.frac) := by
    linear_combination ((b.coeff : ℚ) * 10 ^ a.frac) * PyDecimal.rescale_b a b
  constructor
  · intro h
    have h2 := mul_lt_mul_of_pos_right h
      (show (0 : ℚ) < 10 ^ a.frac * 10 ^ b.frac by positivity)
    rw [e1, e2] at h2
    exact lt_of_mul_lt_mul_right h2 (by positivity)
  · intro h
    have h2 := mul_lt_mul_of_pos_right h
      (show (0 : ℚ) < 10 ^ (a.frac ⊔ b.frac) by positivity)
    rw [← e1, ← e2] at h2
    exact lt_of_mul_lt_mul_right h2 (by positivity)

theorem headNotDigit_dot (xs : List Char) : headNotDigit ('.' :: xs) := by
  show digitVal '.' = none
  decide

theorem decOfChars_digits (ids : List Nat) (hne : ids ≠ []) (h10 : ∀ x ∈ ids, x < 10) :
    decOfChars (ids.map digitChar) = some ⟨(natOfDigits ids : Int), 0⟩ := by
  cases ids with
  | nil => exact absurd rfl hne
  | cons i0 r =>
    have hi0 : i0 < 10 := h10 i0 (List.mem_cons_self _ _)
    have hm := digitChar_ne_minus hi0
    have ht : takeDigits (digitChar i0 :: r.map digitChar) = (i0 :: r, []) := by
      simpa using takeDigits_spec (i0 :: r) h10 [] trivial
    simp [decOfChars, hm, ht]

theorem decOfChars_neg_digits (ids : List Nat) (hne : ids ≠ []) (h10 : ∀ x ∈ ids, x < 10) :
    decOfChars ('-' :: ids.map digitChar) = some ⟨-(natOfDigits ids : Int), 0⟩ := by
  cases ids with
  | nil => exact absurd rfl hne
  | cons i0 r =>
    have ht : takeDigits (digitChar i0 :: r.map digitChar) = (i0 :: r, []) := by
      simpa using takeDigits_spec (i0 :: r) h10 [] trivial
    simp [decOfChars, ht]

theorem decOfChars_dot_digits (ids fds : List Nat) (hni : ids ≠ []) (hnf : fds ≠ [])
    (h10i : ∀ x ∈ ids, x < 10) (h10f : ∀ x ∈ fds, x < 10) :
    decOfChars (ids.map digitChar ++ '.' :: fds.map digitChar) =
      some ⟨(natOfDigits (ids ++ fds) : Int), fds.length⟩ := by
  cases ids with
  | nil => exact absurd rfl hni
  | cons i0 r =>
    have hi0 : i0 < 10 := h10i i0 (List.mem_cons_self _ _)
    have hm := digitChar_ne_minus hi0
    cases fds with
    | nil => exact absurd rfl hnf
    | cons f0 rf =>
      have ht : takeDigits (digitChar i0 ::
          (r.map digitChar ++ '.' :: digitChar f0 :: rf.map digitChar)) =
          (i0 :: r, '.' :: digitChar f0 :: rf.map digitChar) := by
        simpa using takeDigits_spec (i0 :: r) h10i ('.' :: digitChar f0 :: rf.map digitChar)
          (headNotDigit_dot _)
      have htf : takeDigits (digitChar f0 :: rf.map digitChar) = (f0 :: rf, []) := by
        simpa using takeDigits_spec (f0 :: rf) h10f [] trivial
      simp [decOfChars, hm, ht, htf]

theorem decOfChars_neg_dot_digits (ids fds : List Nat) (hni : ids ≠ []) (hnf : fds ≠ [])
    (h10i : ∀ x ∈ ids, x < 10) (h10f : ∀ x ∈ fds, x < 10) :
    decOfChars ('-' :: (ids.map digitChar ++ '.' :: fds.map digitChar)) =
      some ⟨-(natOfDigits (ids ++ fds) : Int), fds.length⟩ := by
  cases ids with
  | nil => exact absurd rfl hni
  | cons i0 r =>
    cases fds with
    | nil => exact absurd rfl hnf
    | cons f0 rf =>
      have ht : takeDigits (digitChar i0 ::
          (r.map digitChar ++ '.' :: digitChar f0 :: rf.map digitChar)) =
          (i0 :: r, '.' :: digitChar f0 :: rf.map digitChar) := by
        simpa using takeDigits_spec (i0 :: r) h10i ('.' :: digitChar f0 :: rf.map digitChar)
          (headNotDigit_dot _)
      have htf : takeDigits (digitChar f0 :: rf.map digitChar) = (f0 :: rf, []) := by
        simpa using takeDigits_spec (f0 :: rf) h10f [] trivial
      simp [decOfChars, ht, htf]

/-- Reading a printed decimal back with `Decimal(...)` reproduces it exactly:
this is the heart of the round-trip guarantee for monetary fields (a price
`19.99` prints as `"19.99"` and parses back to the identical value). -/
theorem decOfChars_decChars (d : PyDecimal) : decOfChars (decChars d) = some d := by
  obtain ⟨C, F⟩ := d
  have hds10 := digitsBE_lt_ten C.natAbs
  have hdsne := digitsBE_ne_nil C.natAbs
  have hval := natOfDigits_digitsBE C.natAbs
  by_cases hF : F = 0
  · subst hF
    by_cases hC : C < 0
    · have hshape : decChars ⟨C, 0⟩ = '-' :: (digitsBE C.natAbs).map digitChar := by
        simp [decChars, hC]
      rw [hshape, decOfChars_neg_digits _ hdsne hds10, hval]
      have hc : -(C.natAbs : Int) = C := by omega
      rw [hc]
    · have hshape : decChars ⟨C, 0⟩ = (digitsBE C.natAbs).map digitChar := by
        simp [decChars, hC]
      rw [hshape, decOfChars_digits _ hdsne hds10, hval]
      have hc : (C.natAbs : Int) = C := by omega
      rw [hc]
  · have hplen : F + 1 ≤ (List.replicate (F + 1 - (digitsBE C.natAbs).length) 0 ++
        digitsBE C.natAbs).length := by
      rw [List.length_append, List.length_replicate]
      omega
    set padded := List.replicate (F + 1 - (digitsBE C.natAbs).length) 0 ++ digitsBE C.natAbs
      with hpadded
    have hpad10 : ∀ x ∈ padded, x < 10 := by
      intro x hx
      rcases List.mem_append.mp hx with h | h
      · rw [List.eq_of_mem_replicate h]; omega
      · exact hds10 x h
    set ip := padded.take (padded.length - F) with hip
    set fp := padded.drop (padded.length - F) with hfp
    have hipfp : ip ++ fp = padded := List.take_append_drop _ _
    have hfplen : fp.length = F := by
      rw [hfp, List.length_drop]; omega
    have hiplen : 0 < ip.length := by
      rw [hip, List.length_take]; omega
    have hipne : ip ≠ [] := List.ne_nil_of_length_pos hiplen
    have hfpne : fp ≠ [] := by
      refine List.ne_nil_of_length_pos ?_
      omega
    have hip10 : ∀ x ∈ ip, x < 10 := fun x hx => hpad10 x (List.take_subset _ _ hx)
    have hfp10 : ∀ x ∈ fp, x < 10 := fun x hx => hpad10 x (List.drop_subset _ _ hx)
    have hvalp : natOfDigits (ip ++ fp) = C.natAbs := by
      rw [hipfp, hpadded, natOfDigits_replicate_zero, hval]
    by_cases hC : C < 0
    · have hshape : decChars ⟨C, F⟩ =
          '-' :: (ip.map digitChar ++ '.' :: fp.map digitChar) := by
        simp only [decChars, if_neg hF, ← hpadded, ← hip, ← hfp, if_pos hC]
        simp
      rw [hshape, decOfChars_neg_dot_digits _ _ hipne hfpne hip10 hfp10, hvalp, hfplen]
      have hc : -(C.natAbs : Int) = C := by omega
      rw [hc]
    · have hshape : decChars ⟨C, F⟩ = ip.map digitChar ++ '.' :: fp.map digitChar := by
        simp only [decChars, if_neg hF, ← hpadded, ← hip, ← hfp, if_neg hC]
        simp
      rw [hshape, decOfChars_dot_digits _ _ hipne hfpne hip10 hfp10, hvalp, hfplen]
      have hc : (C.natAbs : Int) = C := by omega
      rw [hc]

/-- String-level decimal round trip. -/
theorem decOfString_decToString (d : PyDecimal) : decOfString (decToString d) = some d := by
  unfold decOfString decToString
  exact decOfChars_decChars d

theorem plainChar_ne_quote {c : Char} (h : plainChar c = true) : c ≠ '"' := by
  intro he
  subst he
  exact absurd h (by decide)

theorem plainStr_chars {s : String} (h : plainStr s = true) : ∀ c ∈ s.data, c ≠ '"' := by
  intro c hc
  exact plainChar_ne_quote (by simpa using List.all_eq_true.mp h c hc)

theorem digitChar_ne_quote {d : Nat} (h : d < 10) : digitChar d ≠ '"' := by
  interval_cases d <;> decide

theorem digitChar_ne_lbracket {d : Nat} (h : d < 10) : digitChar d ≠ '[' := by
  interval_cases d <;> decide

theorem headNotDigit_cbr (xs : List Char) : headNotDigit (cbr :: xs) := by
  show digitVal cbr = none
  decide

theorem headNotDigit_comma (xs : List Char) : headNotDigit (',' :: xs) := by
  show digitVal ',' = none
  decide

theorem headNotDigit_rbracket (xs : List Char) : headNotDigit (']' :: xs) := by
  show digitVal ']' = none
  decide

theorem takeUntilQuote_spec (cs : List Char) (h : ∀ c ∈ cs, c ≠ '"') (rest : List Char) :
    takeUntilQuote (cs ++ '"' :: rest) = some (cs, rest) := by
  induction cs with
  | nil => simp [takeUntilQuote]
  | cons c cs ih =>
    have hc : c ≠ '"' := h c (List.mem_cons_self _ _)
    simp [takeUntilQuote, hc, ih (fun x hx => h x (List.mem_cons_of_mem _ hx))]

theorem parseStringLit_spec (s : String) (hp : plainStr s = true) (rest : List Char) :
    parseStringLit (dumpString s ++ rest) = some (s, rest) := by
  have hshape : dumpString s ++ rest = '"' :: (s.data ++ '"' :: rest) := by
    simp [dumpString]
  rw [hshape]
  simp [parseStringLit, takeUntilQuote_spec s.data (plainStr_chars hp) rest]

theorem parseIntLit_spec (n : Int) (rest : List Char) (hr : headNotDigit rest) :
    parseIntLit (dumpInt n ++ rest) = some (n, rest) := by
  have hds10 := digitsBE_lt_ten n.natAbs
  rcases hds : digitsBE n.natAbs with _ | ⟨d0, ds⟩
  · exact absurd hds (digitsBE_ne_nil _)
  · have h10 : ∀ d ∈ d0 :: ds, d < 10 := by rw [← hds]; exact hds10
    have hd0 : d0 < 10 := h10 d0 (List.mem_cons_self _ _)
    have htd : takeDigits ((d0 :: ds).map digitChar ++ rest) = (d0 :: ds, rest) :=
      takeDigits_spec _ h10 rest hr
    have hvalds : natOfDigits (d0 :: ds) = n.natAbs := by
      rw [← hds, natOfDigits_digitsBE]
    by_cases hn : n < 0
    · have hshape : dumpInt n ++ rest = '-' :: ((d0 :: ds).map digitChar ++ rest) := by
        simp [dumpInt, if_pos hn, natChars, hds]
      rw [hshape]
      have hv : -(natOfDigits (d0 :: ds) : Int) = n := by rw [hvalds]; omega
      simp only [List.map_cons, List.cons_append] at htd
      simp [parseIntLit, htd, hv]
    · have hshape : dumpInt n ++ rest =
          digitChar d0 :: (ds.map digitChar ++ rest) := by
        simp [dumpInt, if_neg hn, natChars, hds]
      rw [hshape]
      have hm := digitChar_ne_minus hd0
      have hv : (natOfDigits (d0 :: ds) : Int) = n := by rw [hvalds]; omega
      simp only [List.map_cons, List.cons_append] at htd
      simp [parseIntLit, hm, htd, hv]

theorem dumpInt_head (n : Int) :
    ∃ c t, dumpInt n = c :: t ∧ c ≠ '"' ∧ c ≠ '[' := by
  rcases hds : digitsBE n.natAbs with _ | ⟨d0, ds⟩
  · exact absurd hds (digitsBE_ne_nil _)
  · have hd0 : d0 < 10 := by
      have := digitsBE_lt_ten n.natAbs
      rw [hds] at this
      exact this d0 (List.mem_cons_self _ _)
    by_cases hn : n < 0
    · exact ⟨'-', natChars n.natAbs, by simp [dumpInt, if_pos hn], by decide, by decide⟩
    · refine ⟨digitChar d0, ds.map digitChar, ?_, digitChar_ne_quote hd0,
        digitChar_ne_lbracket hd0⟩
      simp [dumpInt, if_neg hn, natChars, hds]

theorem parseSVal_spec (v : SVal) (rest : List Char) (hp : plainSVal v = true)
    (hr : headNotDigit rest) : parseSVal (dumpSVal v ++ rest) = some (v, rest) := by
  cases v with
  | str s =>
    have hshape : dumpSVal (.str s) ++ rest = '"' :: (s.data ++ '"' :: rest) := by
      simp [dumpSVal, dumpString]
    rw [hshape]
    have hlit := parseStringLit_spec s hp rest
    rw [show dumpString s ++ rest = '"' :: (s.data ++ '"' :: rest) by simp [dumpString]] at hlit
    simp [parseSVal, hlit]
  | int n =>
    obtain ⟨c, t, hdump, hq, _⟩ := dumpInt_head n
    have hshape : dumpSVal (.int n) ++ rest = c :: (t ++ rest) := by
      simp [dumpSVal, hdump]
    rw [hshape]
    have hint := parseIntLit_spec n rest hr
    rw [hdump] at hint
    simp only [List.cons_append] at hint
    simp [parseSVal, hq, hint]

theorem cbr_ne_comma : ¬ cbr = ',' := by decide

theorem quote_ne_cbr : ¬ '"' = cbr := by decide

theorem obr_ne_rbracket : ¬ obr = ']' := by decide

theorem parseFieldsS_spec : ∀ (r : ItemRec) (fuel : Nat) (rest : List Char),
    r ≠ [] → plainItemRec r = true → (dumpFieldsS r).length < fuel →
    parseFieldsS fuel (dumpFieldsS r ++ cbr :: rest) = some (r, rest) := by
  intro r
  induction r with
  | nil => intro fuel rest hne; exact absurd rfl hne
  | cons kv r ih =>
    intro fuel rest _ hplain hlen
    obtain ⟨k, v⟩ := kv
    simp only [plainItemRec, List.all_cons, Bool.and_eq_true] at hplain
    have hpk : plainStr k = true := hplain.1.1
    have hpv : plainSVal v = true := hplain.1.2
    cases fuel with
    | zero => omega
    | succ f =>
      cases r with
      | nil =>
        have hshape : dumpFieldsS [(k, v)] ++ cbr :: rest =
            dumpString k ++ ':' :: (dumpSVal v ++ cbr :: rest) := by
          simp [dumpFieldsS, dumpFieldS]
        rw [hshape]
        have hstr := parseStringLit_spec k hpk (':' :: (dumpSVal v ++ cbr :: rest))
        have hval := parseSVal_spec v (cbr :: rest) hpv (headNotDigit_cbr _)
        simp [parseFieldsS, hstr, hval, cbr_ne_comma]
      | cons kv2 r2 =>
        have hplain2 : plainItemRec (kv2 :: r2) = true := hplain.2
        have hshape : dumpFieldsS ((k, v) :: kv2 :: r2) ++ cbr :: rest =
            dumpString k ++ ':' ::
              (dumpSVal v ++ ',' :: (dumpFieldsS (kv2 :: r2) ++ cbr :: rest)) := by
          simp [dumpFieldsS, dumpFieldS]
        rw [hshape]
        have hstr := parseStringLit_spec k hpk
          (':' :: (dumpSVal v ++ ',' :: (dumpFieldsS (kv2 :: r2) ++ cbr :: rest)))
        have hval := parseSVal_spec v
          (',' :: (dumpFieldsS (kv2 :: r2) ++ cbr :: rest)) hpv (headNotDigit_comma _)
        have hlen2 : (dumpFieldsS (kv2 :: r2)).length < f := by
          simp [dumpFieldsS, dumpFieldS, dumpString] at hlen
          omega
        have hrec := ih f rest (by simp) hplain2 hlen2
        simp [parseFieldsS, hstr, hval, hrec, cbr_ne_comma]

theorem dumpFieldsS_head (kv : String × SVal) (r : ItemRec) :
    (dumpFieldsS (kv :: r)).head? = some '"' := by
  cases r <;> simp [dumpFieldsS, dumpFieldS, dumpString]

theorem parseItemRec_spec (x : ItemRec) (fuel : Nat) (rest : List Char)
    (hplain : plainItemRec x = true) (hlen : (dumpFieldsS x).length < fuel) :
    parseItemRec fuel (dumpItemRec x ++ rest) = some (x, rest) := by
  cases x with
  | nil => simp [parseItemRec, dumpItemRec, dumpFieldsS]
  | cons kv x' =>
    rcases hf : dumpFieldsS (kv :: x') with _ | ⟨c0, t⟩
    · have := dumpFieldsS_head kv x'
      rw [hf] at this
      simp at this
    · have hc0 : c0 = '"' := by
        have := dumpFieldsS_head kv x'
        rw [hf] at this
        simpa using this
      subst hc0
      have hfs := parseFieldsS_spec (kv :: x') fuel rest (by simp) hplain hlen
      rw [hf] at hfs
      have hshape : dumpItemRec (kv :: x') ++ rest = obr :: ('"' :: (t ++ cbr :: rest)) := by
        simp [dumpItemRec, hf]
      rw [hshape]
      simp only [List.cons_append] at hfs
      simp [parseItemRec, hfs, quote_ne_cbr]

theorem dumpElems_head (x : ItemRec) (xs : List ItemRec) :
    (dumpElems (x :: xs)).head? = some obr := by
  cases xs <;> simp [dumpElems, dumpItemRec]

theorem parseElems_spec : ∀ (xs : List ItemRec) (fuel : Nat) (rest : List Char),
    xs ≠ [] → xs.all plainItemRec = true → (dumpElems xs).length < fuel →
    parseElems fuel (dumpElems xs ++ ']' :: rest) = some (xs, rest) := by
  intro xs
  induction xs with
  | nil => intro fuel rest hne; exact absurd rfl hne
  | cons x xs ih =>
    intro fuel rest _ hplain hlen
    simp only [List.all_cons, Bool.and_eq_true] at hplain
    cases fuel with
    | zero => omega
    | succ f =>
      cases xs with
      | nil =>
        have hitem := parseItemRec_spec x f (']' :: rest) hplain.1 (by
          simp [dumpElems, dumpItemRec] at hlen
          omega)
        have hshape : dumpElems [x] ++ ']' :: rest = dumpItemRec x ++ ']' :: rest := by
          simp [dumpElems]
        rw [hshape]
        simp [parseElems, hitem]
      | cons x2 xs2 =>
        have hlen2 : (dumpElems (x2 :: xs2)).length < f := by
          simp [dumpElems, dumpItemRec] at hlen ⊢
          omega
        have hitem := parseItemRec_spec x f
          (',' :: (dumpElems (x2 :: xs2) ++ ']' :: rest)) hplain.1 (by
            simp [dumpElems, dumpItemRec] at hlen
            omega)
        have hrec := ih f rest (by simp) hplain.2 hlen2
        have hshape : dumpElems (x :: x2 :: xs2) ++ ']' :: rest =
            dumpItemRec x ++ ',' :: (dumpElems (x2 :: xs2) ++ ']' :: rest) := by
          simp [dumpElems]
        rw [hshape]
        simp [parseElems, hitem, hrec]

theorem parseJVal_spec (v : JVal) (fuel : Nat) (rest : List Char)
    (hp : plainJVal v = true) (hr : headNotDigit rest)
    (hlen : (dumpJVal v).length < fuel) :
    parseJVal fuel (dumpJVal v ++ rest) = some (v, rest) := by
  cases v with
  | str s =>
    have hshape : dumpJVal (.str s) ++ rest = '"' :: (s.data ++ '"' :: rest) := by
      simp [dumpJVal, dumpString]
    rw [hshape]
    have hlit := parseStringLit_spec s hp rest
    rw [show dumpString s ++ rest = '"' :: (s.data ++ '"' :: rest) by simp [dumpString]] at hlit
    simp [parseJVal, hlit]
  | int n =>
    obtain ⟨c, t, hdump, hq, hb⟩ := dumpInt_head n
    have hshape : dumpJVal (.int n) ++ rest = c :: (t ++ rest) := by
      simp [dumpJVal, hdump]
    rw [hshape]
    have hint := parseIntLit_spec n rest hr
    rw [hdump] at hint
    simp only [List.cons_append] at hint
    simp [parseJVal, hq, hb, hint]
  | arr xs =>
    cases xs with
    | nil => simp [parseJVal, dumpJVal, dumpArr, dumpElems]
    | cons x xs' =>
      rcases hf : dumpElems (x :: xs') with _ | ⟨c0, t⟩
      · have := dumpElems_head x xs'
        rw [hf] at this
        simp at this
      · have hc0 : c0 = obr := by
          have := dumpElems_head x xs'
          rw [hf] at this
          simpa using this
        subst hc0
        have hel := parseElems_spec (x :: xs') fuel rest (by simp)
          (by simpa [plainJVal] using hp)
          (by simp [dumpJVal, dumpArr] at hlen; omega)
        rw [hf] at hel
        simp only [List.cons_append] at hel
        have hshape : dumpJVal (.arr (x :: xs')) ++ rest =
            '[' :: (obr :: (t ++ ']' :: rest)) := by
          simp [dumpJVal, dumpArr, hf]
        rw [hshape]
        simp [parseJVal, hel, obr_ne_rbracket]

theorem parseFieldsJ_spec : ∀ (r : JRec) (fuel : Nat) (rest : List Char),
    r ≠ [] → plainJRec r = true → (dumpFieldsJ r).length < fuel →
    parseFieldsJ fuel (dumpFieldsJ r ++ cbr :: rest) = some (r, rest) := by
  intro r
  induction r with
  | nil => intro fuel rest hne; exact absurd rfl hne
  | cons kv r ih =>
    intro fuel rest _ hplain hlen
    obtain ⟨k, v⟩ := kv
    simp only [plainJRec, List.all_cons, Bool.and_eq_true] at hplain
    have hpk : plainStr k = true := hplain.1.1
    have hpv : plainJVal v = true := hplain.1.2
    cases fuel with
    | zero => omega
    | succ f =>
      cases r with
      | nil =>
        have hshape : dumpFieldsJ [(k, v)] ++ cbr :: rest =
            dumpString k ++ ':' :: (dumpJVal v ++ cbr :: rest) := by
          simp [dumpFieldsJ, dumpFieldJ]
        rw [hshape]
        have hstr := parseStringLit_spec k hpk (':' :: (dumpJVal v ++ cbr :: rest))
        have hval := parseJVal_spec v (f + 1) (cbr :: rest) hpv (headNotDigit_cbr _) (by
          simp [dumpFieldsJ, dumpFieldJ, dumpString] at hlen
          omega)
        simp [parseFieldsJ, hstr, hval, cbr_ne_comma]
      | cons kv2 r2 =>
        have hplain2 : plainJRec (kv2 :: r2) = true := hplain.2
        have hshape : dumpFieldsJ ((k, v) :: kv2 :: r2) ++ cbr :: rest =
            dumpString k ++ ':' ::
              (dumpJVal v ++ ',' :: (dumpFieldsJ (kv2 :: r2) ++ cbr :: rest)) := by
          simp [dumpFieldsJ, dumpFieldJ]
        rw [hshape]
        have hstr := parseStringLit_spec k hpk
          (':' :: (dumpJVal v ++ ',' :: (dumpFieldsJ (kv2 :: r2) ++ cbr :: rest)))
        have hval := parseJVal_spec v (f + 1)
          (',' :: (dumpFieldsJ (kv2 :: r2) ++ cbr :: rest)) hpv (headNotDigit_comma _) (by
            simp [dumpFieldsJ, dumpFieldJ, dumpString] at hlen
            omega)
        have hlen2 : (dumpFieldsJ (kv2 :: r2)).length < f := by
          simp [dumpFieldsJ, dumpFieldJ, dumpString] at hlen
          omega
        have hrec := ih f rest (by simp) hplain2 hlen2
        simp [parseFieldsJ, hstr, hval, hrec, cbr_ne_comma]

theorem dumpFieldsJ_head (kv : String × JVal) (r : JRec) :
    (dumpFieldsJ (kv :: r)).head? = some '"' := by
  cases r <;> simp [dumpFieldsJ, dumpFieldJ, dumpString]

theorem parseJRec_spec (x : JRec) (fuel : Nat) (rest : List Char)
    (hplain : plainJRec x = true) (hlen : (dumpFieldsJ x).length < fuel) :
    parseJRec fuel (dumpJRec x ++ rest) = some (x, rest) := by
  cases x with
  | nil => simp [parseJRec, dumpJRec, dumpFieldsJ]
  | cons kv x' =>
    rcases hf : dumpFieldsJ (kv :: x') with _ | ⟨c0, t⟩
    · have := dumpFieldsJ_head kv x'
      rw [hf] at this
      simp at this
    · have hc0 : c0 = '"' := by
        have := dumpFieldsJ_head kv x'
        rw [hf] at this
        simpa using this
      subst hc0
      have hfs := parseFieldsJ_spec (kv :: x') fuel rest (by simp) hplain hlen
      rw [hf] at hfs
      have hshape : dumpJRec (kv :: x') ++ rest = obr :: ('"' :: (t ++ cbr :: rest)) := by
        simp [dumpJRec, hf]
      rw [hshape]
      simp only [List.cons_append] at hfs
      simp [parseJRec, hfs, quote_ne_cbr]

theorem parseFieldsD_spec : ∀ (d : JDoc) (fuel : Nat) (rest : List Char),
    d ≠ [] → plainJDoc d = true → (dumpFieldsD d).length < fuel →
    parseFieldsD fuel (dumpFieldsD d ++ cbr :: rest) = some (d, rest) := by
  intro d
  induction d with
  | nil => intro fuel rest hne; exact absurd rfl hne
  | cons kv d ih =>
    intro fuel rest _ hplain hlen
    obtain ⟨k, v⟩ := kv
    simp only [plainJDoc, List.all_cons, Bool.and_eq_true] at hplain
    have hpk : plainStr k = true := hplain.1.1
    have hpv : plainJRec v = true := hplain.1.2
    cases fuel with
    | zero => omega
    | succ f =>
      cases d with
      | nil =>
        have hshape : dumpFieldsD [(k, v)] ++ cbr :: rest =
            dumpString k ++ ':' :: (dumpJRec v ++ cbr :: rest) := by
          simp [dumpFieldsD, dumpFieldD]
        rw [hshape]
        have hstr := parseStringLit_spec k hpk (':' :: (dumpJRec v ++ cbr :: rest))
        have hval := parseJRec_spec v (f + 1) (cbr :: rest) hpv (by
          simp [dumpFieldsD, dumpFieldD, dumpString, dumpJRec] at hlen
          omega)
        simp [parseFieldsD, hstr, hval, cbr_ne_comma]
      | cons kv2 d2 =>
        have hplain2 : plainJDoc (kv2 :: d2) = true := hplain.2
        have hshape : dumpFieldsD ((k, v) :: kv2 :: d2) ++ cbr :: rest =
            dumpString k ++ ':' ::
              (dumpJRec v ++ ',' :: (dumpFieldsD (kv2 :: d2) ++ cbr :: rest)) := by
          simp [dumpFieldsD, dumpFieldD]
        rw [hshape]
        have hstr := parseStringLit_spec k hpk
          (':' :: (dumpJRec v ++ ',' :: (dumpFieldsD (kv2 :: d2) ++ cbr :: rest)))
        have hval := parseJRec_spec v (f + 1)
          (',' :: (dumpFieldsD (kv2 :: d2) ++ cbr :: rest)) hpv (by
            simp [dumpFieldsD, dumpFieldD, dumpString, dumpJRec] at hlen
            omega)
        have hlen2 : (dumpFieldsD (kv2 :: d2)).length < f := by
          simp [dumpFieldsD, dumpFieldD, dumpString] at hlen
          omega
        have hrec := ih f rest (by simp) hplain2 hlen2
        simp [parseFieldsD, hstr, hval, hrec, cbr_ne_comma]

theorem dumpFieldsD_head (kv : String × JRec) (r : JDoc) :
    (dumpFieldsD (kv :: r)).head? = some '"' := by
  cases r <;> simp [dumpFieldsD, dumpFieldD, dumpString]

theorem parseJDoc_spec (d : JDoc) (fuel : Nat) (rest : List Char)
    (hplain : plainJDoc d = true) (hlen : (dumpFieldsD d).length < fuel) :
    parseJDoc fuel ((obr :: dumpFieldsD d ++ [cbr]) ++ rest) = some (d, rest) := by
  cases d with
  | nil => simp [parseJDoc, dumpFieldsD]
  | cons kv d' =>
    rcases hf : dumpFieldsD (kv :: d') with _ | ⟨c0, t⟩
    · have := dumpFieldsD_head kv d'
      rw [hf] at this
      simp at this
    · have hc0 : c0 = '"' := by
        have := dumpFieldsD_head kv d'
        rw [hf] at this
        simpa using this
      subst hc0
      have hfs := parseFieldsD_spec (kv :: d') fuel rest (by simp) hplain hlen
      rw [hf] at hfs
      simp only [List.cons_append, List.append_assoc, List.singleton_append] at hfs ⊢
      simp [parseJDoc, hfs, quote_ne_cbr]

/-- Round trip of the whole JSON text layer: `json.loads` recovers exactly
the document `json.dumps` wrote, for every document whose strings need no
escapes (as all of the program's keys and values in the plain regime). -/
theorem jsonLoads_jsonDumps (doc : JDoc) (hplain : plainJDoc doc = true) :
    jsonLoads (jsonDumps doc) = some doc := by
  have hlen : (jsonDumps doc).length = (dumpFieldsD doc).length + 2 := by
    show (obr :: dumpFieldsD doc ++ [cbr]).length = _
    simp
  have hspec := parseJDoc_spec doc ((jsonDumps doc).length + 1) [] hplain (by omega)
  rw [List.append_nil] at hspec
  unfold jsonLoads
  rw [show (jsonDumps doc).data = obr :: dumpFieldsD doc ++ [cbr] from rfl, hspec]

/-! ### Supporting lemmas for the claims -/

theorem getv_mem {β : Type} : ∀ (l : List (String × β)) (k : String) (v : β),
    getv l k = some v → (k, v) ∈ l := by
  intro l
  induction l with
  | nil => intro k v h; simp at h
  | cons kv r ih =>
    intro k v h
    obtain ⟨k', v'⟩ := kv
    by_cases hk : k' = k
    · subst hk
      simp at h
      simp [h]
    · rw [getv_cons, if_neg hk] at h
      exact List.mem_cons_of_mem _ (ih k v h)

theorem getv_none_of_not_keys {β : Type} : ∀ (l : List (String × β)) (k : String),
    k ∉ l.map Prod.fst → getv l k = none := by
  intro l
  induction l with
  | nil => intro k _; rfl
  | cons kv r ih =>
    intro k hk
    obtain ⟨k', v'⟩ := kv
    simp only [List.map_cons, List.mem_cons] at hk
    push_neg at hk
    rw [getv_cons, if_neg (by exact fun h => hk.1 h.symm)]
    exact ih k hk.2

/-- Lookup after a Python `dict.update`: updated keys read the new value,
all other keys are unchanged. -/
theorem getv_dictUpdate : ∀ (u r : JRec), (u.map Prod.fst).Nodup → ∀ f,
    getv (dictUpdate r u) f =
      match getv u f with
      | some v => some v
      | none => getv r f := by
  intro u
  induction u with
  | nil => intro r _ f; rfl
  | cons kv u' ih =>
    intro r hnd f
    obtain ⟨k, v⟩ := kv
    simp only [List.map_cons, List.nodup_cons] at hnd
    have step : dictUpdate r ((k, v) :: u') = dictUpdate (setKey r k v) u' := rfl
    rw [step, ih (setKey r k v) hnd.2 f]
    by_cases hf : k = f
    · subst hf
      rw [getv_none_of_not_keys u' k hnd.1]
      simp [getv_setKey_self]
    · rw [getv_cons, if_neg hf]
      cases getv u' f with
      | none => simp [getv_setKey_ne r k f v hf]
      | some w => simp

theorem qtyOk_setQty (r : JRec) (n : Int) (hn : 0 ≤ n) :
    qtyOk (setKey r "quantity" (.int n)) = true := by
  unfold qtyOk recQty
  rw [getv_setKey_self]
  simp [pyInt, hn]

/-- One `adjust_stock` call that returns preserves the catalog invariant. -/
theorem adjust_stock_qtyInv (inv : JDoc) (hinv : QtyInv inv) (pid : String) (d : Int) :
    ∀ b inv2, adjust_stock inv pid d = some (b, inv2) → QtyInv inv2 := by
  intro b inv2 h
  unfold adjust_stock at h
  rcases hg : getv inv pid with _ | r
  · simp only [hg, Option.some.injEq, Prod.mk.injEq] at h
    rw [← h.2]
    exact hinv
  · simp only [hg] at h
    rcases hq : recQty r with _ | q
    · simp only [hq] at h
      exact Option.noConfusion h
    · simp only [hq] at h
      by_cases hneg : q + d < 0
      · simp only [if_pos hneg, Option.some.injEq, Prod.mk.injEq] at h
        rw [← h.2]
        exact hinv
      · simp only [if_neg hneg, Option.some.injEq, Prod.mk.injEq] at h
        rw [← h.2]
        intro kv hkv
        rcases mem_setKey _ _ _ _ hkv with hkv | hkv
        · rw [hkv]
          exact qtyOk_setQty r (q + d) (by omega)
        · exact hinv kv hkv

/-- A whole sequence of `adjust_stock` calls preserves the catalog
invariant. -/
theorem adjustSeq_qtyInv : ∀ (calls : List (String × Int)) (inv : JDoc),
    QtyInv inv → QtyInv (adjustSeq inv calls) := by
  intro calls
  induction calls with
  | nil => intro inv h; exact h
  | cons c rest ih =>
    intro inv h
    obtain ⟨pid, d⟩ := c
    show QtyInv (adjustSeq inv ((pid, d) :: rest))
    rw [adjustSeq]
    rcases ha : adjust_stock inv pid d with _ | ⟨b, inv2⟩
    · exact h
    · exact ih inv2 (adjust_stock_qtyInv inv h pid d b inv2 ha)

/-- `add_item` over a list: the items are appended in order and the running
total is the exact sum of their `total_price`s plus the starting total. -/
theorem addItems_spec (l : List TransactionItem) : ∀ (t : Transaction),
    (t.addItems l).items = t.items ++ l ∧
    (t.addItems l).total_amount.val =
      t.total_amount.val + (l.map (fun it => it.total_price.val)).sum := by
  induction l with
  | nil => intro t; simp [Transaction.addItems]
  | cons it l ih =>
    intro t
    have h := ih (t.add_item it)
    constructor
    · show (Transaction.addItems (t.add_item it) l).items = _
      rw [h.1]
      simp [Transaction.add_item]
    · show (Transaction.addItems (t.add_item it) l).total_amount.val = _
      rw [h.2]
      simp [Transaction.add_item, PyDecimal.val_add]
      ring

/-- Tag every stored record with its timestamp's day; with all records
parsing and none on `day`, the day's filter is empty. -/
theorem report_tagged (day : Int) : ∀ (store : JDoc),
    (∀ kv ∈ store, tsNotOn kv.2 day = true) →
    ∃ tagged,
      optMap (fun kv => ((recTimestamp kv.2).bind isoDay).map (fun d => (kv, d))) store =
        some tagged ∧
      tagged.filter (fun x => decide (x.2 = day)) = [] := by
  intro store
  induction store with
  | nil => intro _; exact ⟨[], rfl, rfl⟩
  | cons kv r ih =>
    intro hts
    obtain ⟨tg, htg, hfil⟩ := ih (fun x hx => hts x (List.mem_cons_of_mem _ hx))
    have hh := hts kv (List.mem_cons_self _ _)
    unfold tsNotOn at hh
    rcases hb : (recTimestamp kv.2).bind isoDay with _ | d
    · rw [hb] at hh
      simp at hh
    · rw [hb] at hh
      simp only [decide_eq_true_iff] at hh
      refine ⟨(kv, d) :: tg, ?_, ?_⟩
      · have hf : ((recTimestamp kv.2).bind isoDay).map
            (fun d => (kv, d)) = some (kv, d) := by
          rw [hb]
          rfl
        unfold optMap
        rw [hf, htg]
      · simp [List.filter, hh, hfil]

/-- Tag every stored product with its parsed expiry day (all parse by
hypothesis), characterizing membership. -/
theorem expiry_mapM : ∀ (inv : JDoc),
    (∀ kv ∈ inv, (expiryDay kv.2).isSome = true) →
    ∃ l, optMap (fun kv => (expiryDay kv.2).map (fun e => (kv.2, e))) inv = some l ∧
      ∀ pe, pe ∈ l ↔ ∃ kv, kv ∈ inv ∧ kv.2 = pe.1 ∧ expiryDay pe.1 = some pe.2 := by
  intro inv
  induction inv with
  | nil =>
    intro _
    exact ⟨[], rfl, by simp⟩
  | cons kv r ih =>
    intro hall
    obtain ⟨l', hl', hiff⟩ := ih (fun x hx => hall x (List.mem_cons_of_mem _ hx))
    obtain ⟨e, he⟩ := Option.isSome_iff_exists.mp (hall kv (List.mem_cons_self _ _))
    have hf : (expiryDay kv.2).map (fun e => (kv.2, e)) = some (kv.2, e) := by
      rw [he]
      rfl
    refine ⟨(kv.2, e) :: l', by unfold optMap; rw [hf, hl'], ?_⟩
    intro pe
    constructor
    · intro hpe
      rcases List.mem_cons.mp hpe with h | h
      · subst h
        exact ⟨kv, List.mem_cons_self _ _, rfl, he⟩
      · obtain ⟨kv', hkv', h1, h2⟩ := (hiff pe).mp h
        exact ⟨kv', List.mem_cons_of_mem _ hkv', h1, h2⟩
    · rintro ⟨kv', hkv', h1, h2⟩
      rcases List.mem_cons.mp hkv' with h | h
      · subst h
        obtain ⟨p1, p2⟩ := pe
        simp only at h1 h2
        subst h1
        rw [he] at h2
        simp at h2
        subst h2
        exact List.mem_cons_self _ _
      · exact List.mem_cons_of_mem _ ((hiff pe).mpr ⟨kv', h, h1, h2⟩)

/-! ### The claims -/

/-- C1: starting from any catalog state in which every product's quantity is
non-negative, every sequence of `adjust_stock` calls keeps every stored
quantity non-negative; a call for an absent id returns `False`, a call with
`current_quantity + delta < 0` returns `False` and leaves the stored document
unchanged, and a successful call stores exactly `current_quantity + delta`
(other products untouched). -/
theorem claim1_adjust_stock_nonneg (inv : JDoc) (product_id : String) (delta : Int)
    (calls : List (String × Int)) :
    (getv inv product_id = none → adjust_stock inv product_id delta = some (false, inv)) ∧
    (∀ r q, getv inv product_id = some r → recQty r = some q → q + delta < 0 →
      adjust_stock inv product_id delta = some (false, inv)) ∧
    (∀ r q, getv inv product_id = some r → recQty r = some q → 0 ≤ q + delta →
      adjust_stock inv product_id delta =
        some (true, setKey inv product_id (setKey r "quantity" (JVal.int (q + delta)))) ∧
      getv (setKey inv product_id (setKey r "quantity" (JVal.int (q + delta)))) product_id =
        some (setKey r "quantity" (JVal.int (q + delta))) ∧
      recQty (setKey r "quantity" (JVal.int (q + delta))) = some (q + delta) ∧
      (∀ pid, pid ≠ product_id →
        getv (setKey inv product_id (setKey r "quantity" (JVal.int (q + delta)))) pid =
          getv inv pid)) ∧
    (QtyInv inv → QtyInv (adjustSeq inv calls)) := by
  refine ⟨?_, ?_, ?_, adjustSeq_qtyInv calls inv⟩
  · intro h
    simp [adjust_stock, h]
  · intro r q hr hq hneg
    simp [adjust_stock, hr, hq, hneg]
  · intro r q hr hq hpos
    have hneg : ¬ (q + delta < 0) := by omega
    refine ⟨by simp [adjust_stock, hr, hq, hneg], getv_setKey_self _ _ _, ?_,
      fun pid hpid => getv_setKey_ne _ _ _ _ (Ne.symm hpid)⟩
    unfold recQty
    rw [getv_setKey_self]
    rfl

/-- C1 witness: a concrete catalog with quantity 7, run through a sale, a
rejected oversell and an unknown id; the invariant is preserved. -/
theorem claim1_witness :
    QtyInv [("P1", [("quantity", JVal.int 7)])] ∧
    QtyInv (adjustSeq [("P1", [("quantity", JVal.int 7)])]
      [("P1", -3), ("P1", -10), ("P2", 5)]) :=
  ⟨by decide,
    (claim1_adjust_stock_nonneg [("P1", [("quantity", JVal.int 7)])] "P1" 0
      [("P1", -3), ("P1", -10), ("P2", 5)]).2.2.2 (by decide)⟩

/-- C2 counterexample: after a successful `process_payment` (which the claim
calls reaching `Settled`), a second `process_payment` with a sufficient amount
is not rejected: it succeeds and overwrites `payment_received` and `change`
(from 5.00/5.00 to 7.00/7.00 here). -/
theorem claim2_counterexample :
    Transaction.process_payment (Transaction.init "TXN1" "alice" "2024-11-10T10:00:00")
      ⟨500, 2⟩ =
      some ⟨"TXN1", "alice", "2024-11-10T10:00:00", [], ⟨0, 2⟩, ⟨500, 2⟩, ⟨500, 2⟩⟩ ∧
    Transaction.process_payment
      ⟨"TXN1", "alice", "2024-11-10T10:00:00", [], ⟨0, 2⟩, ⟨500, 2⟩, ⟨500, 2⟩⟩ ⟨700, 2⟩ =
      some ⟨"TXN1", "alice", "2024-11-10T10:00:00", [], ⟨0, 2⟩, ⟨700, 2⟩, ⟨700, 2⟩⟩ := by
  constructor <;> rfl

/-- C2 amended: `process_payment` with `amount < total_amount` raises
(`none`), leaving the transaction unchanged; with `amount >= total_amount` it
records `payment_received = amount` and `change = amount - total_amount`
(exactly, at the value level) — but there is no `Settled` state: the method
has no guard, so a later sufficient payment overwrites these fields (see the
counterexample). -/
theorem claim2_process_payment (t : Transaction) (amount : PyDecimal) :
    (amount.ltb t.total_amount = true → t.process_payment amount = none) ∧
    (amount.ltb t.total_amount = false →
      t.process_payment amount =
        some { t with payment_received := amount, change := amount.sub t.total_amount } ∧
      (amount.sub t.total_amount).val = amount.val - t.total_amount.val) := by
  constructor
  · intro h
    simp [Transaction.process_payment, h]
  · intro h
    exact ⟨by simp [Transaction.process_payment, h], PyDecimal.val_sub _ _⟩

/-- C2 witness: a 20.00 total rejects a 15.00 payment and settles a 25.00
payment with change 5.00. -/
theorem claim2_witness :
    Transaction.process_payment ⟨"T", "c", "ts", [], ⟨2000, 2⟩, ⟨0, 2⟩, ⟨0, 2⟩⟩ ⟨1500, 2⟩ =
      none ∧
    Transaction.process_payment ⟨"T", "c", "ts", [], ⟨2000, 2⟩, ⟨0, 2⟩, ⟨0, 2⟩⟩ ⟨2500, 2⟩ =
      some ⟨"T", "c", "ts", [], ⟨2000, 2⟩, ⟨2500, 2⟩, ⟨500, 2⟩⟩ :=
  ⟨(claim2_process_payment ⟨"T", "c", "ts", [], ⟨2000, 2⟩, ⟨0, 2⟩, ⟨0, 2⟩⟩ ⟨1500, 2⟩).1
      (by decide),
    ((claim2_process_payment ⟨"T", "c", "ts", [], ⟨2000, 2⟩, ⟨0, 2⟩, ⟨0, 2⟩⟩ ⟨2500, 2⟩).2
      (by decide)).1⟩

/-- C3: for a transaction built by any sequence of `add_item` calls from a
fresh `Transaction`, the items list is that sequence and the running
`total_amount` equals the exact sum of the items' `total_price`s — decimal
arithmetic, no rounding error (stated over the exact rational values). -/
theorem claim3_total_is_sum (tid cashier ts : String) (l : List TransactionItem) :
    ((Transaction.init tid cashier ts).addItems l).items = l ∧
    ((Transaction.init tid cashier ts).addItems l).total_amount.val =
      (l.map (fun it => it.total_price.val)).sum := by
  have h := addItems_spec l (Transaction.init tid cashier ts)
  refine ⟨by simpa [Transaction.init] using h.1, ?_⟩
  rw [h.2]
  simp [Transaction.init, PyDecimal.val]

/-- C4: serializing a `Product` record and a `Transaction` record to the JSON
document format and reloading reproduces the identical record; the monetary
fields are stored as decimal strings produced by `str(Decimal)`, not native
numbers, and those strings parse back to the exact decimal value (`"19.99"`
stays `19.99`).  The plain-string hypotheses say the record's strings need no
JSON escapes, which holds for every record the program builds from its
prompts. -/
theorem claim4_roundtrip (p : Product) (t : Transaction)
    (hp : plainJDoc [(p.product_id, Product.to_dict p)] = true)
    (ht : plainJDoc [(t.transaction_id, Transaction.to_dict t)] = true) :
    jsonLoads (jsonDumps [(p.product_id, Product.to_dict p)]) =
      some [(p.product_id, Product.to_dict p)] ∧
    jsonLoads (jsonDumps [(t.transaction_id, Transaction.to_dict t)]) =
      some [(t.transaction_id, Transaction.to_dict t)] ∧
    getv (Product.to_dict p) "price" = some (.str (decToString p.price)) ∧
    getv (Transaction.to_dict t) "total_amount" = some (.str (decToString t.total_amount)) ∧
    getv (Transaction.to_dict t) "payment_received" =
      some (.str (decToString t.payment_received)) ∧
    getv (Transaction.to_dict t) "change" = some (.str (decToString t.change)) ∧
    decOfString (decToString p.price) = some p.price ∧
    decOfString (decToString t.total_amount) = some t.total_amount := by
  refine ⟨jsonLoads_jsonDumps _ hp, jsonLoads_jsonDumps _ ht, ?_, ?_, ?_, ?_,
    decOfString_decToString _, decOfString_decToString _⟩ <;>
    simp [Product.to_dict, Transaction.to_dict]

/-- C4 witness: a tea priced `19.99` and a settled two-item transaction
round-trip exactly. -/
theorem claim4_witness :
    jsonLoads (jsonDumps [("P1", Product.to_dict ⟨"P1", "tea", "drink", ⟨1999, 2⟩, 7,
      "2025-12-31"⟩)]) =
      some [("P1", Product.to_dict ⟨"P1", "tea", "drink", ⟨1999, 2⟩, 7, "2025-12-31"⟩)] ∧
    decOfString (decToString (⟨1999, 2⟩ : PyDecimal)) = some ⟨1999, 2⟩ :=
  ⟨(claim4_roundtrip ⟨"P1", "tea", "drink", ⟨1999, 2⟩, 7, "2025-12-31"⟩
      (Transaction.init "TXN1" "alice" "2024-11-10T10:00:00")
      (by decide) (by decide)).1,
    (claim4_roundtrip ⟨"P1", "tea", "drink", ⟨1999, 2⟩, 7, "2025-12-31"⟩
      (Transaction.init "TXN1" "alice" "2024-11-10T10:00:00")
      (by decide) (by decide)).2.2.2.2.2.2.1⟩

/-- C5 counterexample: for a date with no transactions the report's
`total_sales` is the string `"0"` — Python's `sum` of an empty sequence is
the int `0`, and `str(0)` is `"0"`, not the claimed `"0.00"`. -/
theorem claim5_counterexample :
    get_daily_sales_report [] ⟨20037, 0⟩ = some ⟨20037, "0", 0, 0, []⟩ ∧
    ("0" : String) ≠ "0.00" := by
  constructor
  · rfl
  · decide

/-- C5 amended: when every stored transaction's timestamp parses and none
falls on the requested calendar date, the report has `total_sales = "0"`
(not `"0.00"`: the empty `sum` is the int `0`), `total_transactions = 0`,
`total_items_sold = 0` and an empty transaction set. -/
theorem claim5_empty_day_report (store : JDoc) (date : PyDateTime)
    (hts : ∀ kv ∈ store, tsNotOn kv.2 date.day = true) :
    get_daily_sales_report store date = some ⟨date.day, "0", 0, 0, []⟩ := by
  obtain ⟨tagged, htag, hfil⟩ := report_tagged date.day store hts
  unfold get_daily_sales_report
  rw [htag]
  simp [hfil, optMap, pySum, pyStr]
  rfl

/-- C5 witness: a ledger holding one transaction on 2024-11-10, queried for
2024-11-11. -/
theorem claim5_witness :
    get_daily_sales_report
      [("T1", [("timestamp", JVal.str "2024-11-10T10:30:00"),
               ("total_amount", JVal.str "19.99"),
               ("items", JVal.arr [[("quantity", SVal.int 2)]])])]
      ⟨daysFromCivil 2024 11 11, 3600⟩ =
      some ⟨daysFromCivil 2024 11 11, "0", 0, 0, []⟩ :=
  claim5_empty_day_report
    [("T1", [("timestamp", JVal.str "2024-11-10T10:30:00"),
             ("total_amount", JVal.str "19.99"),
             ("items", JVal.arr [[("quantity", SVal.int 2)]])])]
    ⟨daysFromCivil 2024 11 11, 3600⟩ (by decide)

/-- C6: the admin add-product path feeds the typed price through Python
`float`, storing a binary64 value: for the input `"19.99"` the stored float
`m / 2 ^ (t - 128)` differs from the exact decimal `19.99 = 1999/100` that
the declared `Decimal` type (and `Decimal` parsing elsewhere) would keep. -/
theorem claim6_float_price :
    pyFloat "19.99" = some (5626684784446013, 176) ∧
    5626684784446013 * 100 * 2 ^ 128 ≠ 1999 * 2 ^ 176 ∧
    decOfString "19.99" = some ⟨1999, 2⟩ := by
  refine ⟨by decide, by decide, rfl⟩

/-- C7: with every stored product's `expiry_date` well-formed,
`get_expiring_products(days)` returns exactly the products whose
`(expiry - today).days` is at most `days`, inclusive — including
already-expired products with negative day counts. -/
theorem claim7_expiring (inv : JDoc) (now : PyDateTime) (days : Int)
    (hall : ∀ kv ∈ inv, (expiryDay kv.2).isSome = true) :
    ∃ items, get_expiring_products inv now days = some items ∧
      ∀ r, r ∈ items ↔ ∃ kv, kv ∈ inv ∧ kv.2 = r ∧
        ∃ e, expiryDay r = some e ∧ daysUntil e now ≤ days := by
  obtain ⟨l, hl, hiff⟩ := expiry_mapM inv hall
  refine ⟨(l.filter (fun pe => decide (daysUntil pe.2 now ≤ days))).map (fun pe => pe.1),
    ?_, ?_⟩
  · unfold get_expiring_products
    rw [hl]
  · intro r
    constructor
    · intro hr
      obtain ⟨pe, hpe, hpe1⟩ := List.mem_map.mp hr
      obtain ⟨hpel, hcond⟩ := List.mem_filter.mp hpe
      obtain ⟨kv, hkv, h1, h2⟩ := (hiff pe).mp hpel
      refine ⟨kv, hkv, by rw [h1, hpe1], pe.2, by rw [← hpe1]; exact h2, ?_⟩
      simpa using hcond
    · rintro ⟨kv, hkv, h1, e, he, hcond⟩
      refine List.mem_map.mpr ⟨(r, e), List.mem_filter.mpr
        ⟨(hiff (r, e)).mpr ⟨kv, hkv, h1, he⟩, by simpa using hcond⟩, rfl⟩

/-- C7 witness: with today 2024-11-01, a product expired on 2024-10-20
(negative day count) and one expiring 2024-11-20 are both returned for
`days = 30`, and one expiring 2025-11-10 is not. -/
theorem claim7_witness :
    ∃ items, get_expiring_products
      [("P1", [("expiry_date", JVal.str "2024-10-20")]),
       ("P2", [("expiry_date", JVal.str "2024-11-20")]),
       ("P3", [("expiry_date", JVal.str "2025-11-10")])]
      ⟨daysFromCivil 2024 11 1, 3600⟩ 30 = some items ∧
      ∀ r, r ∈ items ↔ ∃ kv, kv ∈
        [("P1", [("expiry_date", JVal.str "2024-10-20")]),
         ("P2", [("expiry_date", JVal.str "2024-11-20")]),
         ("P3", [("expiry_date", JVal.str "2025-11-10")])] ∧ kv.2 = r ∧
        ∃ e, expiryDay r = some e ∧ daysUntil e ⟨daysFromCivil 2024 11 1, 3600⟩ ≤ 30 :=
  claim7_expiring _ ⟨daysFromCivil 2024 11 1, 3600⟩ 30 (by decide)

/-- C8 counterexample: the username `"Admin"` is neither the string
`"admin"` nor present in the (empty) user store, yet `register` returns
`False` — the reserved-name check is case-insensitive
(`username.lower() == 'admin'`), refuting the claim's "any other username
succeeds" clause. -/
theorem claim8_counterexample :
    ("Admin" : String) ≠ "admin" ∧
    getv ([] : JDoc) "Admin" = none ∧
    register [] "Admin" "pw" = (false, []) := by
  refine ⟨by decide, rfl, ?_⟩
  rfl

/-- C8 amended: `register` refuses every username whose lowercase form is
`"admin"` (so `"admin"` always fails, regardless of the store — and so do
`"Admin"`, `"ADMIN"`, …); it refuses a username already present; any other
username is stored as a Salesman record and `True` is returned. -/
theorem claim8_register (users : JDoc) (username password : String) :
    (pyLower username = "admin" → register users username password = (false, users)) ∧
    (pyLower username ≠ "admin" → (getv users username).isSome = true →
      register users username password = (false, users)) ∧
    (pyLower username ≠ "admin" → getv users username = none →
      register users username password =
        (true, setKey users username
          [("password", .str password), ("role", .str "salesman")])) := by
  refine ⟨fun h => by simp [register, h], fun h1 h2 => ?_, fun h1 h2 => ?_⟩
  · simp [register, h1, h2]
  · simp [register, h1, h2]

/-- C8 witness: `"admin"` always fails (even on an empty store), a taken
name fails, and a fresh name becomes a Salesman. -/
theorem claim8_witness :
    register [] "admin" "pw" = (false, []) ∧
    register [("bob", [("password", JVal.str "x"), ("role", JVal.str "salesman")])]
      "bob" "pw" =
      (false, [("bob", [("password", JVal.str "x"), ("role", JVal.str "salesman")])]) ∧
    register [] "bob" "pw" =
      (true, [("bob", [("password", JVal.str "pw"), ("role", JVal.str "salesman")])]) :=
  ⟨(claim8_register [] "admin" "pw").1 (by decide),
    (claim8_register [("bob", [("password", JVal.str "x"),
      ("role", JVal.str "salesman")])] "bob" "pw").2.1 (by decide) (by decide),
    (claim8_register [] "bob" "pw").2.2 (by decide) rfl⟩

/-- C9: `update_prodcut` returns `False` for an absent id; for a present id
it merges exactly the given field/value pairs into that product's record
(updated fields read the new value, all other fields of the record are
unchanged), leaves every other product unchanged, persists and returns
`True`. -/
theorem claim9_update_prodcut (inv : JDoc) (product_id : String) (updates : JRec)
    (hnd : (updates.map Prod.fst).Nodup) :
    (getv inv product_id = none → update_prodcut inv product_id updates = (false, inv)) ∧
    (∀ r, getv inv product_id = some r →
      update_prodcut inv product_id updates =
        (true, setKey inv product_id (dictUpdate r updates)) ∧
      getv (setKey inv product_id (dictUpdate r updates)) product_id =
        some (dictUpdate r updates) ∧
      (∀ f, getv (dictUpdate r updates) f =
        match getv updates f with
        | some v => some v
        | none => getv r f) ∧
      (∀ pid, pid ≠ product_id →
        getv (setKey inv product_id (dictUpdate r updates)) pid = getv inv pid)) := by
  constructor
  · intro h
    simp [update_prodcut, h]
  · intro r hr
    exact ⟨by simp [update_prodcut, hr], getv_setKey_self _ _ _,
      getv_dictUpdate updates r hnd, fun pid hpid => getv_setKey_ne _ _ _ _ (Ne.symm hpid)⟩

/-- C9 witness: updating `P1`'s price leaves its other fields and the other
product intact. -/
theorem claim9_witness :
    update_prodcut
      [("P1", [("name", JVal.str "tea"), ("price", JVal.str "19.99")]),
       ("P2", [("name", JVal.str "jam")])]
      "P1" [("price", JVal.str "24.99")] =
      (true, [("P1", [("name", JVal.str "tea"), ("price", JVal.str "24.99")]),
              ("P2", [("name", JVal.str "jam")])]) ∧
    getv (dictUpdate [("name", JVal.str "tea"), ("price", JVal.str "19.99")]
      [("price", JVal.str "24.99")]) "name" = some (JVal.str "tea") :=
  ⟨((claim9_update_prodcut
      [("P1", [("name", JVal.str "tea"), ("price", JVal.str "19.99")]),
       ("P2", [("name", JVal.str "jam")])]
      "P1" [("price", JVal.str "24.99")] (by decide)).2
      [("name", JVal.str "tea"), ("price", JVal.str "19.99")] rfl).1,
    by
      rw [((claim9_update_prodcut
        [("P1", [("name", JVal.str "tea"), ("price", JVal.str "19.99")]),
         ("P2", [("name", JVal.str "jam")])]
        "P1" [("price", JVal.str "24.99")] (by decide)).2
        [("name", JVal.str "tea"), ("price", JVal.str "19.99")] rfl).2.2.1 "name"]
      rfl⟩

/-- C10: every failing `Inventory` operation — duplicate-id `add_product`,
missing-id `update_prodcut` / `delete_product` / `adjust_stock`, and an
`adjust_stock` that would drive the quantity below zero — returns `False`
with the persisted document exactly unchanged (the `False` returns all
happen before `save_data`). -/
theorem claim10_error_paths (inv : JDoc) (p : Product) (pid : String) (updates : JRec)
    (delta : Int) :
    ((add_product inv p).1 = false → (add_product inv p).2 = inv) ∧
    ((update_prodcut inv pid updates).1 = false → (update_prodcut inv pid updates).2 = inv) ∧
    ((delete_product inv pid).1 = false → (delete_product inv pid).2 = inv) ∧
    (∀ b inv2, adjust_stock inv pid delta = some (b, inv2) → b = false → inv2 = inv) ∧
    ((getv inv p.product_id).isSome = true → add_product inv p = (false, inv)) ∧
    (getv inv pid = none → update_prodcut inv pid updates = (false, inv)) ∧
    (getv inv pid = none → delete_product inv pid = (false, inv)) ∧
    (getv inv pid = none → adjust_stock inv pid delta = some (false, inv)) ∧
    (∀ r q, getv inv pid = some r → recQty r = some q → q + delta < 0 →
      adjust_stock inv pid delta = some (false, inv)) := by
  refine ⟨?_, ?_, ?_, ?_, ?_, ?_, ?_, ?_, ?_⟩
  · by_cases h : (getv inv p.product_id).isSome
    · intro _
      simp [add_product, h]
    · intro hf
      simp [add_product, h] at hf
  · rcases hg : getv inv pid with _ | r
    · intro _
      simp [update_prodcut, hg]
    · intro hf
      simp [update_prodcut, hg] at hf
  · rcases hg : getv inv pid with _ | r
    · intro _
      simp [delete_product, hg]
    · intro hf
      simp [delete_product, hg] at hf
  · intro b inv2 h hb
    subst hb
    unfold adjust_stock at h
    rcases hg : getv inv pid with _ | r
    · simp only [hg, Option.some.injEq, Prod.mk.injEq] at h
      exact h.2.symm
    · simp only [hg] at h
      rcases hq : recQty r with _ | q
      · simp only [hq] at h
        exact Option.noConfusion h
      · simp only [hq] at h
        by_cases hneg : q + delta < 0
        · simp only [if_pos hneg, Option.some.injEq, Prod.mk.injEq] at h
          exact h.2.symm
        · simp only [if_neg hneg, Option.some.injEq, Prod.mk.injEq] at h
          exact absurd h.1.symm (by decide)
  · intro h
    simp [add_product, h]
  · intro h
    simp [update_prodcut, h]
  · intro h
    simp [delete_product, h]
  · intro h
    simp [adjust_stock, h]
  · intro r q hr hq hneg
    simp [adjust_stock, hr, hq, hneg]

/-- C10 witness: each error path on a concrete catalog leaves it unchanged. -/
theorem claim10_witness :
    add_product [("P1", [("quantity", JVal.int 7)])]
      ⟨"P1", "tea", "drink", ⟨1999, 2⟩, 7, "2025-12-31"⟩ =
      (false, [("P1", [("quantity", JVal.int 7)])]) ∧
    update_prodcut [("P1", [("quantity", JVal.int 7)])] "P9" [] =
      (false, [("P1", [("quantity", JVal.int 7)])]) ∧
    delete_product [("P1", [("quantity", JVal.int 7)])] "P9" =
      (false, [("P1", [("quantity", JVal.int 7)])]) ∧
    adjust_stock [("P1", [("quantity", JVal.int 7)])] "P9" 1 =
      (some (false, [("P1", [("quantity", JVal.int 7)])])) ∧
    adjust_stock [("P1", [("quantity", JVal.int 7)])] "P1" (-10) =
      (some (false, [("P1", [("quantity", JVal.int 7)])])) :=
  ⟨(claim10_error_paths [("P1", [("quantity", JVal.int 7)])]
      ⟨"P1", "tea", "drink", ⟨1999, 2⟩, 7, "2025-12-31"⟩ "P9" [] 1).2.2.2.2.1 (by decide),
    (claim10_error_paths [("P1", [("quantity", JVal.int 7)])]
      ⟨"P1", "tea", "drink", ⟨1999, 2⟩, 7, "2025-12-31"⟩ "P9" [] 1).2.2.2.2.2.1 rfl,
    (claim10_error_paths [("P1", [("quantity", JVal.int 7)])]
      ⟨"P1", "tea", "drink", ⟨1999, 2⟩, 7, "2025-12-31"⟩ "P9" [] 1).2.2.2.2.2.2.1 rfl,
    (claim10_error_paths [("P1", [("quantity", JVal.int 7)])]
      ⟨"P1", "tea", "drink", ⟨1999, 2⟩, 7, "2025-12-31"⟩ "P9" [] 1).2.2.2.2.2.2.2.1 rfl,
    (claim10_error_paths [("P1", [("quantity", JVal.int 7)])]
      ⟨"P1", "tea", "drink", ⟨1999, 2⟩, 7, "2025-12-31"⟩ "P1" [] (-10)).2.2.2.2.2.2.2.2
      [("quantity", JVal.int 7)] 7 rfl rfl (by decide)⟩

end IMS

